import Mathlib

/-!
Verification of the nichi subtitle-translation core against its source.

Text is modelled as `List Char` (`Str`), a faithful shallow embedding of
Python strings restricted to the operations the code uses.  Each definition
below is translated from a named function of the repository; the file then
proves or refutes the frozen behavioural claims about those functions.
-/

namespace Nichi

abbrev Str := List Char

/-- Coerce a Lean string literal to the `List Char` model. -/
def chars (s : String) : Str := s.data

/-- Whitespace characters stripped by Python `str.strip()` and matched by
the regex class `\s` (ASCII range). -/
def isPySpace (c : Char) : Bool :=
  c = ' ' || c = '\t' || c = '\n' || c = '\r' || c = '\x0b' || c = '\x0c'

/-- Python `str.lstrip()`. -/
def lstrip (s : Str) : Str := s.dropWhile isPySpace

/-- Python `str.rstrip()`. -/
def rstrip (s : Str) : Str := (s.reverse.dropWhile isPySpace).reverse

/-- Python `str.strip()`. -/
def pyStrip (s : Str) : Str := rstrip (lstrip s)

/-- Python `str.split(sep)` for a single-character separator: splits on every
occurrence, keeping empty pieces, and returns `[""]` on the empty string. -/
def splitSep (sep : Char) : Str → List Str
  | [] => [[]]
  | c :: rest =>
    if c = sep then [] :: splitSep sep rest
    else
      match splitSep sep rest with
      | l :: ls => (c :: l) :: ls
      | [] => [[c]]

/-- Python `"\n".split` of a response, `content.split("\n")`. -/
def splitLines (s : Str) : List Str := splitSep '\n' s

/-- Python `sep.join(pieces)` for a single-character separator. -/
def joinSep (sep : Char) : List Str → Str
  | [] => []
  | [l] => l
  | l :: ls => l ++ sep :: joinSep sep ls

/-- Numeric value of a list of ASCII digits, most significant first. -/
def digitsVal (ds : Str) : Nat :=
  ds.foldl (fun a c => 10 * a + (c.toNat - 48)) 0

/-- ASCII digit character for a value below ten. -/
def digitChar (n : Nat) : Char := Char.ofNat (48 + n)

/-- Decimal digits of a natural number, fuel-based so that it reduces in the
kernel; the fuel is always sufficient (`natDigsF_irrel`). -/
def natDigsF : Nat → Nat → Str
  | 0, _ => []
  | f + 1, n => if n < 10 then [digitChar n] else natDigsF f (n / 10) ++ [digitChar (n % 10)]

/-- Decimal digits of a natural number, as produced by Python `str(n)`. -/
def natDigs (n : Nat) : Str := natDigsF (n + 1) n

/-- Python `str(i)` on an `int`. -/
def intStr (i : Int) : Str :=
  if i < 0 then '-' :: natDigs i.natAbs else natDigs i.natAbs

/-- Python `int(s)`: optional surrounding whitespace, optional sign, one or
more ASCII digits; anything else raises `ValueError` (modelled as `none`).
(Underscore digit grouping accepted by CPython is not modelled; the parser
claims never feed it.) -/
def parseInt (s : Str) : Option Int :=
  match pyStrip s with
  | [] => none
  | '-' :: ds => if ds ≠ [] ∧ ds.all Char.isDigit then some (-(digitsVal ds : Int)) else none
  | '+' :: ds => if ds ≠ [] ∧ ds.all Char.isDigit then some (digitsVal ds : Int) else none
  | ds => if ds.all Char.isDigit then some (digitsVal ds : Int) else none

/-- Index of the last occurrence of `c`, Python `str.rfind`. -/
def rfindIdx (c : Char) (s : Str) : Option Nat :=
  match s with
  | [] => none
  | x :: rest =>
    match rfindIdx c rest with
    | some i => some (i + 1)
    | none => if x = c then some 0 else none

/-- Python `pathlib.PurePath(filename).suffix` for a plain file name:
the part from the last dot, unless that dot is the first or last character. -/
def pathSuffix (f : Str) : Str :=
  match rfindIdx '.' f with
  | some i => if 0 < i ∧ i + 1 < f.length then f.drop i else []
  | none => []

/-- Python `pathlib.PurePath(filename).stem` for a plain file name. -/
def pathStem (f : Str) : Str :=
  match rfindIdx '.' f with
  | some i => if 0 < i ∧ i + 1 < f.length then f.take i else f
  | none => f

/-! Embedding of `src/nichi/jellyfin_parser.py` (`JellyfinParser`). -/

/-- Result dictionary of `JellyfinParser.parse_filename`. -/
structure ParsedName where
  name : Option Str
  track : Option Str
  language : Option Str
  modifier : Option Str
  extension : Str
deriving DecidableEq, Repr

/-- Closed modifier-token set `JellyfinParser.MODIFIERS`. -/
def MODIFIERS : List Str := [chars "sdh", chars "forced", chars "cc", chars "hi"]

/-- Embedding of `JellyfinParser.parse_filename`. -/
def parse_filename (filename : Str) : ParsedName :=
  let extension := pathSuffix filename
  let parts := splitSep '.' (pathStem filename)
  let part_count := parts.length
  if part_count < 2 then
    { name := parts.head?, track := none, language := none, modifier := none,
      extension := extension }
  else if part_count = 2 then
    { name := parts.head?, track := none, language := parts[1]?, modifier := none,
      extension := extension }
  else if part_count = 3 then
    if parts.getD 2 [] ∈ MODIFIERS then
      { name := parts.head?, track := none, language := parts[1]?,
        modifier := parts[2]?, extension := extension }
    else
      { name := parts.head?, track := parts[1]?, language := parts[2]?,
        modifier := none, extension := extension }
  else if part_count = 4 then
    { name := parts.head?, track := parts[1]?, language := parts[2]?,
      modifier := parts[3]?, extension := extension }
  else
    let language_index := part_count - 3
    { name := some (joinSep '.' (parts.take (language_index - 1))),
      track := parts[language_index - 1]?,
      language := parts[language_index]?,
      modifier := parts[language_index + 1]?,
      extension := extension }

/-- Python truthiness of an optional string field of the result dict. -/
def truthyField (o : Option Str) : Option Str :=
  match o with
  | some v => if v = [] then none else some v
  | none => none

/-- Embedding of `JellyfinParser.format_output_filename`. -/
def format_output_filename (input_filename : Str) (target_language : Str) : Str :=
  let parsed := parse_filename input_filename
  let parts :=
    (match truthyField parsed.name with | some n => [n] | none => []) ++
    (match truthyField parsed.track with | some t => [t] | none => [])
  let parts := parts ++ [target_language]
  let parts := parts ++
    (match truthyField parsed.modifier with | some m => [m] | none => [])
  joinSep '.' parts ++ (if parsed.extension = [] then chars ".srt" else parsed.extension)

/-! Embedding of `src/nichi/srt_parser.py` (`SRTEntry`, `SRTParser`). -/

/-- The `SRTEntry` dataclass. -/
structure SRTEntry where
  index : Int
  start_time : Str
  end_time : Str
  text : Str
deriving DecidableEq, Repr

/-- Lookahead `(?=\d+\s*\n)` of the block-splitting regex in
`SRTParser.parse_srt_file`: one or more ASCII digits, then whitespace
reaching a newline.  (Python `\d` also matches non-ASCII decimal digits;
ASCII suffices here.) -/
def lookaheadIndex (s : Str) : Bool :=
  s.takeWhile Char.isDigit ≠ [] &&
    ((s.dropWhile Char.isDigit).takeWhile isPySpace).contains '\n'

/-- Separator test of `re.split(r"\n{2,}(?=\d+\s*\n)", content)` at the
current scan position: a run of two or more newlines whose remainder passes
the lookahead.  (Backtracking inside the run cannot help, because a shorter
run leaves a newline where the lookahead requires a digit.) -/
def isBlockSep (s : Str) : Bool :=
  decide (2 ≤ (s.takeWhile (· = '\n')).length) &&
    lookaheadIndex (s.dropWhile (· = '\n'))

/-- Scanner for the `re.split` call: at a separator the whole newline run is
consumed and a block is emitted; any other character accumulates into the
current block (`acc` holds the block reversed).  Fuel-based so that it
reduces in the kernel; one character is consumed per step, so `s.length`
fuel always suffices (`splitBlocksF_irrel`). -/
def splitBlocksF : Nat → Str → Str → List Str
  | 0, _, acc => [acc.reverse]
  | f + 1, s, acc =>
    match s with
    | [] => [acc.reverse]
    | c :: cs =>
      if isBlockSep (c :: cs) then
        acc.reverse :: splitBlocksF f ((c :: cs).dropWhile (· = '\n')) []
      else
        splitBlocksF f cs (c :: acc)

/-- Block list produced by the `re.split` call in `SRTParser.parse_srt_file`. -/
def splitBlocks (s : Str) : List Str := splitBlocksF s.length s []

/-- One `HH:MM:SS[,.]mmm` group of the time-line regex in
`SRTParser.parse_srt_file`. -/
def isTimeChunk : Str → Bool
  | [h1, h2, c1, m1, m2, c2, s1, s2, sep, x1, x2, x3] =>
    h1.isDigit && h2.isDigit && c1 = ':' && m1.isDigit && m2.isDigit && c2 = ':' &&
      s1.isDigit && s2.isDigit && (sep = ',' || sep = '.') &&
      x1.isDigit && x2.isDigit && x3.isDigit
  | _ => false

/-- Match of `(\d{2}:\d{2}:\d{2}[,.]\d{3})\s*-->\s*(\d{2}:\d{2}:\d{2}[,.]\d{3})`
at the start of a line (`re.match`), returning the two captured groups;
trailing characters are permitted, as with `re.match`. -/
def matchTimeLine (line : Str) : Option (Str × Str) :=
  let g1 := line.take 12
  if isTimeChunk g1 then
    match (line.drop 12).dropWhile isPySpace with
    | '-' :: '-' :: '>' :: rest =>
      let g2 := (rest.dropWhile isPySpace).take 12
      if isTimeChunk g2 then some (g1, g2) else none
    | _ => none
  else none

/-- Python `time.replace(".", ",")` applied to a captured time group. -/
def dotsToCommas (s : Str) : Str := s.map fun c => if c = '.' then ',' else c

/-- Per-block body of the parsing loop in `SRTParser.parse_srt_file`; `none`
models `continue` (blank, short, or malformed blocks are skipped). -/
def parseBlock (block : Str) : Option SRTEntry :=
  if pyStrip block = [] then none
  else
    let lines := splitLines (pyStrip block)
    if lines.length < 3 then none
    else
      match parseInt (lines.getD 0 []) with
      | none => none
      | some index =>
        match matchTimeLine (lines.getD 1 []) with
        | none => none
        | some (g1, g2) =>
          some { index := index,
                 start_time := dotsToCommas g1,
                 end_time := dotsToCommas g2,
                 text := pyStrip (joinSep '\n' (lines.drop 2)) }

/-- Python `content.replace("\r\n", "\n")` (left-to-right, non-overlapping). -/
def replaceCRLF : Str → Str
  | '\r' :: '\n' :: rest => '\n' :: replaceCRLF rest
  | c :: rest => c :: replaceCRLF rest
  | [] => []

/-- Embedding of `SRTParser.parse_srt_file` (from `srt_parser.py`), applied
to the decoded file content; the encoding-fallback I/O stays outside the
model, and `content = []` covers the `if not content` early return. -/
def parse_srt_content (content : Str) : List SRTEntry :=
  if content = [] then []
  else
    let normalized := pyStrip (replaceCRLF content)
    (splitBlocks normalized).filterMap parseBlock

/-- One entry as written by `SRTParser.write_srt_file`. -/
def serializeEntry (e : SRTEntry) : Str :=
  intStr e.index ++ '\n' :: (e.start_time ++ chars " --> " ++ e.end_time) ++
    '\n' :: e.text ++ chars "\n\n"

/-- Embedding of `SRTParser.write_srt_file`: the byte stream written out. -/
def write_srt_content (entries : List SRTEntry) : Str :=
  (entries.map serializeEntry).flatten

/-- The body of one serialized block, without its trailing blank line:
index line, time line, text. -/
def coreOf (e : SRTEntry) : Str :=
  intStr e.index ++ '\n' :: (e.start_time ++ chars " --> " ++ e.end_time) ++
    '\n' :: e.text

/-- Block bodies joined by the blank-line separator, the shape of the
normalized serialized stream. -/
def joinBlocks : List Str → Str
  | [] => []
  | [b] => b
  | b :: bs => b ++ '\n' :: '\n' :: joinBlocks bs

/-- Characters a canonical (comma-form) time string consists of. -/
def goodTimeChar (c : Char) : Bool := c.isDigit || c = ':' || c = ','

/-- Well-formed canonical time string: matches the time regex with the comma
separator (so it consists of digits, colons and the comma only). -/
def wfTime (s : Str) : Bool := isTimeChunk s && s.all goodTimeChar

/-- No run of two or more newlines in the text is followed by an ASCII
digit: precisely the shape on which the block-splitting regex of the parser
cannot fire inside cue text.  The scan checks, at every position where two
newlines begin, that the first character after the newline run is not a
digit. -/
def blankRunSafe : Str → Bool
  | [] => true
  | c :: rest =>
    (if c = '\n' then
      match rest with
      | d :: _ =>
        if d = '\n' then
          !(((c :: rest).dropWhile (· = '\n')).headD ' ').isDigit
        else true
      | [] => true
     else true) && blankRunSafe rest

/-- Well-formed cue text: non-empty, already stripped, free of carriage
returns, and with no blank-line run followed by a digit line. -/
def wfText (t : Str) : Bool :=
  decide (t ≠ []) && decide (pyStrip t = t) && decide ('\r' ∉ t) && blankRunSafe t

/-- A string at which the block-splitting separator cannot fire, whatever
follows it: either it does not begin with two newlines, or the first
character after its leading newline run is not a digit (and such a
character exists). -/
def suffixSafe (v : Str) : Prop :=
  v.dropWhile (· = '\n') ≠ [] ∧
    (2 ≤ (v.takeWhile (· = '\n')).length →
      ((v.dropWhile (· = '\n')).headD ' ').isDigit = false)

/-- Well-formed entry: non-negative index, canonical comma-form times,
well-formed text. -/
def wfEntry (e : SRTEntry) : Bool :=
  decide (0 ≤ e.index) && wfTime e.start_time && wfTime e.end_time && wfText e.text

/-! Embedding of `GeminiTranslator._parse_gemini_response`
(`src/nichi/gemini_translator.py`, lines 196-236). -/

/-- Loop state of `_parse_gemini_response`: the output list, the accumulator
`current_translation`, and `expected_number`. -/
structure PState where
  translations : List Str
  current : Str
  expected : Nat
deriving DecidableEq, Repr

/-- Match of `rf"^{expected_number}\.\s*(.*)"` against a stripped line
(`re.match`): the decimal of `expected_number`, a literal dot, optional
whitespace, and the captured remainder of the line. -/
def matchNumbered (expected : Nat) (line : Str) : Option Str :=
  let pre := natDigs expected ++ ['.']
  if pre.isPrefixOf line then some ((line.drop pre.length).dropWhile isPySpace)
  else none

/-- One iteration of the `for line in lines` loop of `_parse_gemini_response`.
The flush guard `len(translations) == expected_number - 2` is written as
`translations.length + 2 = expected` (the same equation over the integers,
since the length is non-negative). -/
def respStep (s : PState) (rawLine : Str) : PState :=
  let line := pyStrip rawLine
  if line = [] then s
  else
    match matchNumbered s.expected line with
    | some rest =>
      let ts :=
        if s.current ≠ [] ∧ s.translations.length + 2 = s.expected then
          s.translations ++ [pyStrip s.current]
        else s.translations
      { translations := ts, current := rest, expected := s.expected + 1 }
    | none =>
      if s.current ≠ [] then { s with current := s.current ++ '\n' :: line } else s

/-- Final flush of `_parse_gemini_response` after the loop
(`if current_translation: translations.append(current_translation.strip())`). -/
def respFinish (s : PState) : List Str :=
  if s.current ≠ [] then s.translations ++ [pyStrip s.current] else s.translations

/-- Translations produced by the numbered-list state machine of
`_parse_gemini_response`, before the length adjustment. -/
def respMachine (raw : Str) : List Str :=
  respFinish ((splitLines (pyStrip raw)).foldl respStep ⟨[], [], 1⟩)

/-- The `while len(translations) < len(original_texts)` padding loop of
`_parse_gemini_response`, fuel-based so that it reduces in the kernel; each
iteration appends `original_texts[len(translations)]`, and at most
`original_texts.length` iterations can run. -/
def padF : Nat → List Str → List Str → List Str
  | 0, ts, _ => ts
  | f + 1, ts, os =>
    if ts.length < os.length then padF f (ts ++ [os.getD ts.length []]) os else ts

/-- Padding loop of `_parse_gemini_response`. -/
def padTranslations (ts os : List Str) : List Str := padF os.length ts os

/-- Embedding of `GeminiTranslator._parse_gemini_response`. -/
def parse_gemini_response (raw : Str) (original_texts : List Str) : List Str :=
  if raw = [] then original_texts
  else
    let translations := respMachine raw
    (padTranslations translations original_texts).take original_texts.length

/-! Embedding of the response parsing and fallback inside
`GeminiTranslator.translate_batch` (`src/nichi/translator.py`, lines
326-380).  This older revision differs from `_parse_gemini_response` in its
continuation handling and in having a positional line fallback. -/

/-- One iteration of the `for line in lines` loop in `translator.py`'s
`translate_batch`: unlike `respStep`, a non-numbered line with an empty
accumulator starts the accumulator. -/
def tbStep (s : PState) (rawLine : Str) : PState :=
  let line := pyStrip rawLine
  if line = [] then s
  else
    match matchNumbered s.expected line with
    | some rest =>
      let ts :=
        if s.current ≠ [] ∧ s.translations.length + 2 = s.expected then
          s.translations ++ [pyStrip s.current]
        else s.translations
      { translations := ts, current := rest, expected := s.expected + 1 }
    | none =>
      if s.current ≠ [] then { s with current := s.current ++ '\n' :: line }
      else { s with current := line }

/-- Translations produced by the numbered-list state machine in
`translator.py`'s `translate_batch`, before the count check. -/
def tbMachine (content : Str) : List Str :=
  respFinish ((splitLines content).foldl tbStep ⟨[], [], 1⟩)

/-- Python `re.sub(r"^\d+\.\s*", "", s)`: drop a leading run of digits
followed by a dot and optional whitespace, if present. -/
def dropNumbering (s : Str) : Str :=
  let ds := s.takeWhile Char.isDigit
  if ds ≠ [] then
    match s.drop ds.length with
    | '.' :: rest => rest.dropWhile isPySpace
    | _ => s
  else s

/-- The non-blank response lines used by the fallback
(`[line for line in translated_content.split("\n") if line.strip()]`);
note the lines are kept unstripped here and stripped at use. -/
def nonBlankLines (content : Str) : List Str :=
  (splitLines content).filter (fun l => pyStrip l ≠ [])

/-- The positional fallback loop of `translator.py`'s `translate_batch`:
one line per input text in order, numbered markers stripped, the original
text used when the line is missing or strips to nothing. -/
def tbFallback : List Str → List Str → List Str
  | [], _ => []
  | t :: ts, [] => t :: tbFallback ts []
  | t :: ts, l :: ls =>
    (let c := dropNumbering (pyStrip l); if c = [] then t else c) :: tbFallback ts ls

/-- Embedding of the parsing section of `translator.py`'s
`GeminiTranslator.translate_batch` (after `translated_content =
response.text.strip()`), taking the raw response text and the input texts. -/
def tbParse (rawText : Str) (texts : List Str) : List Str :=
  let translated_content := pyStrip rawText
  let translations := tbMachine translated_content
  let translations :=
    if translations.length ≠ texts.length then
      tbFallback texts (nonBlankLines translated_content)
    else translations
  padTranslations (translations.take texts.length) texts

/-! Embedding of the caching batch client `GeminiTranslator.translate_batch`
(`src/nichi/gemini_translator.py`). -/

/-- Association-list get, first match wins (models a dict / keyed files). -/
def assocGet : List (Str × Str) → Str → Option Str
  | [], _ => none
  | (k, v) :: rest, key => if k = key then some v else assocGet rest key

/-- Association-list put with overwrite (the newest entry shadows). -/
def assocPut (m : List (Str × Str)) (k v : Str) : List (Str × Str) := (k, v) :: m

/-- Lowercase hexadecimal digit. -/
def hexChar (n : Nat) : Char := if n < 10 then digitChar n else Char.ofNat (87 + n)

/-- Four lowercase hex digits, as in Python `\uXXXX` escapes. -/
def hex4 (n : Nat) : Str :=
  [hexChar (n / 4096 % 16), hexChar (n / 256 % 16), hexChar (n / 16 % 16), hexChar (n % 16)]

/-- JSON escape of one character, following CPython `json.dumps` with its
default `ensure_ascii=True`: two-character escapes for quote, backslash and
the controls BS/FF/LF/CR/TAB, `\uXXXX` for other controls and all non-ASCII
characters, astral-plane characters as a surrogate pair. -/
def jsonEscChar (c : Char) : Str :=
  if c = '"' then chars "\\\""
  else if c = '\\' then chars "\\\\"
  else if c = '\x08' then chars "\\b"
  else if c = '\x0c' then chars "\\f"
  else if c = '\n' then chars "\\n"
  else if c = '\r' then chars "\\r"
  else if c = '\t' then chars "\\t"
  else if c.toNat < 0x20 then '\\' :: 'u' :: hex4 c.toNat
  else if c.toNat < 0x7f then [c]
  else if c.toNat < 0x10000 then '\\' :: 'u' :: hex4 c.toNat
  else
    let v := c.toNat - 0x10000
    ('\\' :: 'u' :: hex4 (0xd800 + v / 0x400)) ++ ('\\' :: 'u' :: hex4 (0xdc00 + v % 0x400))

/-- `json.dumps` of a string. -/
def jsonStr (s : Str) : Str := '"' :: (s.map jsonEscChar).flatten ++ ['"']

/-- `json.dumps` of a list of strings (default separator `", "`). -/
def jsonStrList (ls : List Str) : Str :=
  '[' :: List.intercalate (chars ", ") (ls.map jsonStr) ++ [']']

/-- `json.dumps` of an optional string (`None` becomes `null`). -/
def jsonOptStr : Option Str → Str
  | none => chars "null"
  | some s => jsonStr s

/-- The canonical serialization built by `GeminiTranslator._get_cache_key`:
`json.dumps(\x7b"texts": …, "target_language": …, "source_language": …\x7d,
sort_keys=True)`, whose sorted key order is source_language,
target_language, texts. -/
def encodeCacheData (texts : List Str) (target_language : Str)
    (source_language : Option Str) : Str :=
  chars "\x7b\"source_language\": " ++ jsonOptStr source_language ++
    chars ", \"target_language\": " ++ jsonStr target_language ++
    chars ", \"texts\": " ++ jsonStrList texts ++ [Char.ofNat 125]

/-- Embedding of `GeminiTranslator._get_cache_key`.  The SHA-256 hex digest
itself is a `hashlib` call, kept as the parameter `h`; every theorem below
holds for an arbitrary digest function. -/
def get_cache_key (h : Str → Str) (texts : List Str) (target_language : Str)
    (source_language : Option Str) : Str :=
  h (encodeCacheData texts target_language source_language)

/-- Translator state: the cache directory (keyed raw responses) and a count
of `self.model.generate_content` invocations. -/
structure GemState where
  cache : List (Str × Str)
  remoteCalls : Nat
deriving DecidableEq, Repr

/-- `_get_cached_response` followed by the caller's `if cached_response:`
truthiness test (an absent key and a stored empty string both fall through
to the remote call). -/
def cachedResponse (st : GemState) (k : Str) : Option Str :=
  match assocGet st.cache k with
  | some v => if v = [] then none else some v
  | none => none

/-- The numbered request body of `translate_batch`:
lines `f"{i+1}. {clean_text}"` joined by newlines. -/
def batchText (texts : List Str) : Str :=
  joinSep '\n' ((texts.enum).map fun p => natDigs (p.1 + 1) ++ chars ". " ++ pyStrip p.2)

/-- Embedding of `GeminiTranslator.translate_batch`.  The remote model call
is abstracted by `remote`: `none` models an absent response
(`if not response or not response.text`), `some r` a response whose `.text`
is `r` (an empty `r` is likewise rejected by that test).  `remoteCalls`
counts the `generate_content` calls; the debug write of the request body to
`cache_key + "_debug"` is kept. -/
def gem_translate_batch (h : Str → Str) (remote : Option Str)
    (texts : List Str) (target_language : Str) (source_language : Option Str)
    (st : GemState) : List Str × GemState :=
  if texts = [] then ([], st)
  else
    let cache_key := get_cache_key h texts target_language source_language
    match cachedResponse st cache_key with
    | some cached => (parse_gemini_response cached texts, st)
    | none =>
      let st := { st with
        cache := assocPut st.cache (cache_key ++ chars "_debug") (batchText texts) }
      let st := { st with remoteCalls := st.remoteCalls + 1 }
      match remote with
      | none => (texts, st)
      | some rtext =>
        if rtext = [] then (texts, st)
        else
          let raw_response := pyStrip rtext
          let st := { st with cache := assocPut st.cache cache_key raw_response }
          (parse_gemini_response raw_response texts, st)

/-! Embedding of `GeminiTranslator.translate_batch_with_retry`
(`src/nichi/gemini_translator.py`, lines 317-370). -/

/-- The exception classes distinguished by `translate_batch_with_retry`;
`other` is the final `except Exception` catch-all. -/
inductive GemErr
  | resourceExhausted
  | permissionDenied
  | notFound
  | internalServerError
  | serviceUnavailable
  | deadlineExceeded
  | other
deriving DecidableEq, Repr

/-- Outcome of one `translate_batch` attempt: a result, or a raised
exception with its message `str(e)`. -/
inductive Attempt
  | ok (res : List Str)
  | exn (e : GemErr) (msg : Str)
deriving DecidableEq, Repr

/-- Errors the retry loop retries; `PermissionDenied` and `NotFound` return
immediately. -/
def retryableErr : GemErr → Bool
  | .permissionDenied => false
  | .notFound => false
  | _ => true

/-- The `last_error_message` stored for an exception: `ResourceExhausted`
gets the `"Rate limit exceeded: "` prefixing, every other class is `str(e)`
verbatim. -/
def errMessage : GemErr → Str → Str
  | .resourceExhausted, m => chars "Rate limit exceeded: " ++ m
  | _, m => m

/-- The backoff formula
`min(self.base_delay * (2**attempt) + random.uniform(0, 1), self.max_delay)`,
with real arithmetic modelled over `ℚ` and the drawn jitter passed in. -/
def backoffDelay (baseDelay maxDelay : ℚ) (attempt : Nat) (jit : ℚ) : ℚ :=
  min (baseDelay * 2 ^ attempt + jit) maxDelay

/-- Retry configuration (`max_retries`, `base_delay`, `max_delay`). -/
structure RetryCfg where
  maxRetries : Nat
  baseDelay : ℚ
  maxDelay : ℚ

/-- The `for attempt in range(self.max_retries + 1)` loop of
`translate_batch_with_retry`, structurally recursive on the remaining
iterations.  `outcomes a` is what the `translate_batch` call of attempt `a`
does, `jitter a` the jitter drawn there; the slept delays are returned
alongside the result.  The fuel-exhausted first branch is the (dead)
fall-through return after the loop. -/
def retryGo (cfg : RetryCfg) (outcomes : Nat → Attempt) (jitter : Nat → ℚ)
    (texts : List Str) :
    Nat → Nat → Option Str → (List Str × Bool × Option Str) × List ℚ
  | 0, _, lastErr =>
    ((texts, false,
      some (match lastErr with
            | some m => if m = [] then chars "Translation failed" else m
            | none => chars "Translation failed")), [])
  | remaining + 1, attempt, _lastErr =>
    match outcomes attempt with
    | .ok res => ((res, true, none), [])
    | .exn e msg =>
      let m := errMessage e msg
      if retryableErr e then
        if attempt = cfg.maxRetries then ((texts, false, some m), [])
        else
          let d := backoffDelay cfg.baseDelay cfg.maxDelay attempt (jitter attempt)
          let r := retryGo cfg outcomes jitter texts remaining (attempt + 1) (some m)
          (r.1, d :: r.2)
      else ((texts, false, some m), [])

/-- Embedding of `GeminiTranslator.translate_batch_with_retry`: the result
triple `(translations, success, error_message)` together with the list of
backoff delays slept. -/
def translate_batch_with_retry (cfg : RetryCfg) (outcomes : Nat → Attempt)
    (jitter : Nat → ℚ) (texts : List Str) :
    (List Str × Bool × Option Str) × List ℚ :=
  if texts = [] then (([], true, none), [])
  else retryGo cfg outcomes jitter texts (cfg.maxRetries + 1) 0 none

/-! Embedding of `GeminiTranslator.translate_batches_concurrent`
(`src/nichi/gemini_translator.py`, lines 372-407). -/

/-- The result collection of `asyncio.gather`: every task writes its result
into the slot of its own task index at the moment it completes; `order` is
the completion order of the tasks. -/
def gatherCollect (n : Nat) (res : Nat → α) (order : List Nat) : List (Option α) :=
  order.foldl (fun arr i => arr.set i (some (res i))) (List.replicate n none)

/-- Embedding of `GeminiTranslator.translate_batches_concurrent`.  Each
batch is translated by `translate_batch_with_retry`, abstracted as `f`
(under the semaphore, which bounds in-flight batches but does not touch
results); `asyncio.gather` returns results indexed by task position, with
`order` the completion order (a permutation of the task indices — the `getD`
default is never read then).  The splitting loop appends each triple's
components; its `isinstance(result, tuple)` guard is always true in the
typed model, so only its main branch is embedded. -/
def translate_batches_concurrent (f : List Str → List Str × Bool × Option Str)
    (batch_groups : List (List Str)) (order : List Nat) :
    List (List Str) × List Bool × List (Option Str) :=
  let results := (gatherCollect batch_groups.length
      (fun i => f (batch_groups.getD i [])) order).map
      (fun o => o.getD ([], false, none))
  (results.map (·.1), results.map (·.2.1), results.map (·.2.2))

/-! Embedding of `SRTTranslator.translate_file`
(`src/nichi/translator.py`, lines 541-606). -/

/-- Error vocabulary the orchestrator claim speaks of. -/
inductive OrchestratorError
  | notFound
  | emptyInput
deriving DecidableEq, Repr

/-- Embedding of `SRTTranslator.translate_file`.  The filesystem is an
association list `path → content`; the subtitle parser, the Jellyfin
formatter and the batch engine enter as the functions the method calls
(`parseF`, `formatF`, `translateF`) — the claim settled against this
definition concerns only the control flow around them.  The whole body sits
in a `try` whose `except` converts any exception to `(0, 0, "")`, so the
function is total and the `Except` error constructors (the vocabulary the
claim needs) are never produced: a missing input file returns
`.ok ((0, 0, ""), fs)` via the `if not input_file.exists()` early return,
and so does an empty parse via `if not entries`. -/
def translate_file (fs : List (Str × Str))
    (parseF : Str → List SRTEntry)
    (formatF : Str → Str → Str)
    (translateF : List SRTEntry → List SRTEntry)
    (input_path : Str) (target_language : Str) (output_path : Option Str) :
    Except OrchestratorError ((Nat × Nat × Str) × List (Str × Str)) :=
  match assocGet fs input_path with
  | none => .ok ((0, 0, []), fs)
  | some content =>
    let entries := parseF content
    if entries = [] then .ok ((0, 0, []), fs)
    else
      let output_filename :=
        match output_path with
        | none => formatF input_path target_language
        | some p => p
      let translated_entries := translateF entries
      let translated_entries := if translated_entries = [] then entries else translated_entries
      let fs := assocPut fs output_filename (write_srt_content translated_entries)
      .ok ((entries.length, translated_entries.length, output_filename), fs)

/-! Supporting lemmas. -/

theorem padF_eq (f : Nat) : ∀ ts os : List Str, os.length - ts.length ≤ f →
    padF f ts os = ts ++ os.drop ts.length := by
  induction f with
  | zero =>
    intro ts os h
    simp only [padF]
    rw [List.drop_eq_nil_of_le (by omega)]
    simp
  | succ f ih =>
    intro ts os h
    simp only [padF]
    split
    · next hlt =>
      rw [ih _ _ (by simp; omega)]
      rw [List.getD_eq_getElem _ _ hlt]
      rw [List.append_assoc, List.singleton_append, List.length_append,
        List.length_singleton]
      rw [← List.drop_eq_getElem_cons hlt]
    · next hge =>
      rw [List.drop_eq_nil_of_le (by omega)]
      simp

theorem padTranslations_eq (ts os : List Str) :
    padTranslations ts os = ts ++ os.drop ts.length :=
  padF_eq _ _ _ (by omega)

theorem isDigit_ne_of {c : Char} (h : c.isDigit = true) (d : Char)
    (hd : d.isDigit = false) : c ≠ d := by
  intro hc
  subst hc
  rw [h] at hd
  exact Bool.noConfusion hd

theorem isDigit_not_space {c : Char} (h : c.isDigit = true) : isPySpace c = false := by
  by_contra hns
  rw [Bool.not_eq_false] at hns
  simp only [isPySpace, Bool.or_eq_true, decide_eq_true_eq] at hns
  rcases hns with ((((h1 | h2) | h3) | h4) | h5) | h6 <;> subst_vars <;>
    exact absurd h (by decide)

theorem goodTimeChar_facts {c : Char} (h : goodTimeChar c = true) :
    c ≠ '\n' ∧ c ≠ '\r' ∧ c ≠ '.' ∧ isPySpace c = false := by
  simp only [goodTimeChar, Bool.or_eq_true, decide_eq_true_eq] at h
  rcases h with (hd | h1) | h2
  · exact ⟨isDigit_ne_of hd '\n' (by decide), isDigit_ne_of hd '\r' (by decide),
      isDigit_ne_of hd '.' (by decide), isDigit_not_space hd⟩
  · subst h1
    exact ⟨by decide, by decide, by decide, by decide⟩
  · subst h2
    exact ⟨by decide, by decide, by decide, by decide⟩

theorem length_dropWhile_le (p : Char → Bool) (l : Str) :
    (l.dropWhile p).length ≤ l.length := by
  induction l with
  | nil => simp
  | cons c cs ih =>
    rw [List.dropWhile_cons]
    split
    · exact le_trans ih (by simp)
    · simp

theorem length_rstrip_le (s : Str) : (rstrip s).length ≤ s.length := by
  unfold rstrip
  rw [List.length_reverse]
  calc (s.reverse.dropWhile isPySpace).length ≤ s.reverse.length :=
        length_dropWhile_le _ _
    _ = s.length := List.length_reverse s

theorem lstrip_cons_of {c : Char} (s : Str) (h : isPySpace c = false) :
    lstrip (c :: s) = c :: s := by
  simp [lstrip, List.dropWhile_cons, h]

theorem pyStrip_eq_self (s : Str)
    (h1 : ∀ c, s.head? = some c → isPySpace c = false)
    (h2 : ∀ c, s.getLast? = some c → isPySpace c = false) : pyStrip s = s := by
  cases s with
  | nil => rfl
  | cons c t =>
    have hc := h1 c rfl
    unfold pyStrip
    rw [lstrip_cons_of _ hc]
    unfold rstrip
    cases hrev : (c :: t).reverse with
    | nil => exact absurd (congrArg List.length hrev) (by simp)
    | cons d rs =>
      have hd : (c :: t).getLast? = some d := by
        rw [← List.head?_reverse, hrev]
        rfl
      simp only [List.dropWhile_cons, h2 d hd]
      rw [if_neg (by simp), ← hrev, List.reverse_reverse]

theorem pyStrip_head {c : Char} {t : Str} (h : pyStrip (c :: t) = c :: t) :
    isPySpace c = false := by
  by_contra hsp
  rw [Bool.not_eq_false] at hsp
  have h1 : lstrip (c :: t) = t.dropWhile isPySpace := by
    simp [lstrip, List.dropWhile_cons, hsp]
  have hlen : (pyStrip (c :: t)).length ≤ t.length := by
    unfold pyStrip
    rw [h1]
    exact le_trans (length_rstrip_le _) (length_dropWhile_le _ _)
  rw [h] at hlen
  simp at hlen

theorem rstrip_len_lt {x : Str} {c : Char} (hc : x.getLast? = some c)
    (hsp : isPySpace c = true) : (rstrip x).length < x.length := by
  cases hrev : x.reverse with
  | nil =>
    have : x = [] := by
      have := congrArg List.reverse hrev
      rwa [List.reverse_reverse] at this
    subst this
    simp at hc
  | cons d rs =>
    have hd : x.getLast? = some d := by
      rw [← List.head?_reverse, hrev]
      rfl
    rw [hc] at hd
    have hcd : c = d := by injection hd
    subst hcd
    unfold rstrip
    rw [hrev]
    simp only [List.dropWhile_cons, hsp, if_true]
    rw [List.length_reverse]
    have h1 : (rs.dropWhile isPySpace).length ≤ rs.length := length_dropWhile_le _ _
    have h2 : x.length = rs.length + 1 := by
      have := congrArg List.length hrev
      simp at this
      omega
    omega

theorem pyStrip_getLast {t : Str} (ht : pyStrip t = t) {c : Char}
    (hc : t.getLast? = some c) : isPySpace c = false := by
  by_contra hsp
  rw [Bool.not_eq_false] at hsp
  have hne : t ≠ [] := by
    intro h0
    subst h0
    simp at hc
  cases hl : lstrip t with
  | nil =>
    have : pyStrip t = [] := by
      unfold pyStrip
      rw [hl]
      rfl
    rw [ht] at this
    exact hne this
  | cons d ds =>
    have hsuffix : lstrip t <:+ t := List.dropWhile_suffix _
    obtain ⟨pre, hpre⟩ := hsuffix
    have hlast : (lstrip t).getLast? = some c := by
      rw [← hpre] at hc
      rwa [List.getLast?_append_of_ne_nil pre
        (by rw [hl]; exact List.cons_ne_nil _ _)] at hc
    have hlt : (rstrip (lstrip t)).length < (lstrip t).length :=
      rstrip_len_lt hlast hsp
    have hle : (lstrip t).length ≤ t.length := length_dropWhile_le _ _
    have : (pyStrip t).length < t.length := by
      unfold pyStrip
      omega
    rw [ht] at this
    omega

theorem splitSep_ne_nil (sep : Char) : ∀ s : Str, splitSep sep s ≠ [] := by
  intro s
  induction s with
  | nil => simp [splitSep]
  | cons c rest ih =>
    by_cases hc : c = sep
    · simp [splitSep, hc]
    · cases h2 : splitSep sep rest with
      | nil => exact absurd h2 ih
      | cons l ls => simp [splitSep, hc, h2]

theorem splitSep_append_cons (sep : Char) :
    ∀ (a : Str), (∀ c ∈ a, c ≠ sep) → ∀ b,
      splitSep sep (a ++ sep :: b) = a :: splitSep sep b := by
  intro a
  induction a with
  | nil => intro _ b; simp [splitSep]
  | cons c a' ih =>
    intro h b
    have hc : c ≠ sep := h c (List.mem_cons_self _ _)
    have hrec := ih (fun x hx => h x (List.mem_cons_of_mem _ hx)) b
    simp [splitSep, hc, hrec]

theorem splitSep_no_sep (sep : Char) :
    ∀ (s : Str), (∀ c ∈ s, c ≠ sep) → splitSep sep s = [s] := by
  intro s
  induction s with
  | nil => intro _; rfl
  | cons c rest ih =>
    intro h
    have hc : c ≠ sep := h c (List.mem_cons_self _ _)
    have hrec := ih (fun x hx => h x (List.mem_cons_of_mem _ hx))
    simp [splitSep, hc, hrec]

theorem joinSep_cons_cons (sep : Char) (a l : Str) (ls : List Str) :
    joinSep sep (a :: l :: ls) = a ++ sep :: joinSep sep (l :: ls) := rfl

theorem joinSep_splitSep (sep : Char) : ∀ s : Str, joinSep sep (splitSep sep s) = s := by
  intro s
  induction s with
  | nil => rfl
  | cons c rest ih =>
    by_cases hc : c = sep
    · subst hc
      have h1 : splitSep c (c :: rest) = [] :: splitSep c rest := by simp [splitSep]
      rw [h1]
      cases hL : splitSep c rest with
      | nil => exact absurd hL (splitSep_ne_nil c rest)
      | cons l ls =>
        rw [joinSep_cons_cons, ← hL, ih]
        rfl
    · cases hL : splitSep sep rest with
      | nil => exact absurd hL (splitSep_ne_nil sep rest)
      | cons l ls =>
        have h1 : splitSep sep (c :: rest) = (c :: l) :: ls := by
          simp [splitSep, hc, hL]
        rw [h1]
        cases ls with
        | nil =>
          have : joinSep sep [l] = rest := by rw [← hL, ih]
          show c :: l = c :: rest
          rw [← this]
          rfl
        | cons x xs =>
          rw [joinSep_cons_cons]
          have : joinSep sep (l :: x :: xs) = rest := by rw [← hL, ih]
          rw [joinSep_cons_cons] at this
          show c :: (l ++ sep :: joinSep sep (x :: xs)) = c :: rest
          rw [← this]

theorem digitChar_isDigit : ∀ n, n < 10 → (digitChar n).isDigit = true := by decide

theorem digitChar_toNat : ∀ n, n < 10 → (digitChar n).toNat = 48 + n := by decide

theorem natDigsF_spec : ∀ f n, n < f →
    natDigsF f n ≠ [] ∧ ∀ c ∈ natDigsF f n, c.isDigit = true := by
  intro f
  induction f with
  | zero => intro n h; omega
  | succ f ih =>
    intro n h
    by_cases h10 : n < 10
    · simp only [natDigsF, if_pos h10]
      refine ⟨by simp, fun c hc => ?_⟩
      rw [List.mem_singleton] at hc
      subst hc
      exact digitChar_isDigit n h10
    · simp only [natDigsF, if_neg h10]
      have hdiv : n / 10 < f := by
        have := Nat.div_lt_self (by omega : 0 < n) (by omega : 1 < 10)
        omega
      obtain ⟨h1, h2⟩ := ih (n / 10) hdiv
      refine ⟨by simp, fun c hc => ?_⟩
      rw [List.mem_append] at hc
      rcases hc with hc | hc
      · exact h2 c hc
      · rw [List.mem_singleton] at hc
        subst hc
        exact digitChar_isDigit _ (Nat.mod_lt _ (by omega))

theorem digitsVal_append (a : Str) (c : Char) :
    digitsVal (a ++ [c]) = 10 * digitsVal a + (c.toNat - 48) := by
  simp [digitsVal, List.foldl_append]

theorem digitsVal_natDigsF : ∀ f n, n < f → digitsVal (natDigsF f n) = n := by
  intro f
  induction f with
  | zero => intro n h; omega
  | succ f ih =>
    intro n h
    by_cases h10 : n < 10
    · simp only [natDigsF, if_pos h10]
      simp [digitsVal, digitChar_toNat n h10]
    · simp only [natDigsF, if_neg h10]
      have hdiv : n / 10 < f := by
        have := Nat.div_lt_self (by omega : 0 < n) (by omega : 1 < 10)
        omega
      rw [digitsVal_append, ih _ hdiv, digitChar_toNat _ (Nat.mod_lt _ (by omega))]
      omega

theorem natDigs_ne_nil (n : Nat) : natDigs n ≠ [] :=
  (natDigsF_spec (n + 1) n (by omega)).1

theorem natDigs_all_digit (n : Nat) : ∀ c ∈ natDigs n, c.isDigit = true :=
  (natDigsF_spec (n + 1) n (by omega)).2

theorem digitsVal_natDigs (n : Nat) : digitsVal (natDigs n) = n :=
  digitsVal_natDigsF (n + 1) n (by omega)

theorem pyStrip_all_nonspace (s : Str) (h : ∀ c ∈ s, isPySpace c = false) :
    pyStrip s = s :=
  pyStrip_eq_self s (fun c hc => h c (List.mem_of_mem_head? hc))
    (fun c hc => h c (List.mem_of_mem_getLast? hc))

theorem parseInt_natDigs (n : Nat) : parseInt (natDigs n) = some (n : Int) := by
  have hstrip : pyStrip (natDigs n) = natDigs n :=
    pyStrip_all_nonspace _ (fun c hc => isDigit_not_space (natDigs_all_digit n c hc))
  unfold parseInt
  rw [hstrip]
  cases hc : natDigs n with
  | nil => exact absurd hc (natDigs_ne_nil n)
  | cons c cs =>
    have hcd : c.isDigit = true := natDigs_all_digit n c (by rw [hc]; simp)
    have hall : (c :: cs).all Char.isDigit = true := by
      rw [List.all_eq_true]
      intro x hx
      exact natDigs_all_digit n x (by rw [hc]; exact hx)
    split
    · next heq => exact absurd heq (by simp)
    · next ds heq =>
      injection heq with h1 h2
      exact absurd h1 (isDigit_ne_of hcd '-' (by decide))
    · next ds heq =>
      injection heq with h1 h2
      exact absurd h1 (isDigit_ne_of hcd '+' (by decide))
    · rw [if_pos hall, ← hc, digitsVal_natDigs]

theorem takeWhile_append_of_drop_ne (p : Char → Bool) :
    ∀ (a b : Str), a.dropWhile p ≠ [] →
      (a ++ b).takeWhile p = a.takeWhile p ∧
      (a ++ b).dropWhile p = a.dropWhile p ++ b := by
  intro a
  induction a with
  | nil => intro b h; exact absurd rfl h
  | cons c a' ih =>
    intro b h
    by_cases hp : p c = true
    · have h' : a'.dropWhile p ≠ [] := by
        rw [List.dropWhile_cons, if_pos hp] at h
        exact h
      obtain ⟨ht, hd⟩ := ih b h'
      constructor
      · simp [List.takeWhile_cons, hp, ht]
      · simp [List.dropWhile_cons, hp, hd]
    · constructor
      · simp [List.takeWhile_cons, hp]
      · simp [List.dropWhile_cons, hp]

theorem lookahead_cons_nondigit (d : Char) (t : Str) (hd : d.isDigit = false) :
    lookaheadIndex (d :: t) = false := by
  simp [lookaheadIndex, List.takeWhile_cons, hd]

theorem isBlockSep_cons_of_ne (c : Char) (t : Str) (hc : c ≠ '\n') :
    isBlockSep (c :: t) = false := by
  simp [isBlockSep, List.takeWhile_cons, hc]

theorem isBlockSep_false_of_safe (v rest : Str) (hs : suffixSafe v) :
    isBlockSep (v ++ rest) = false := by
  obtain ⟨hne, hrun⟩ := hs
  obtain ⟨ht, hd⟩ := takeWhile_append_of_drop_ne (· = '\n') v rest hne
  unfold isBlockSep
  rw [ht, hd]
  by_cases h2 : 2 ≤ (v.takeWhile (· = '\n')).length
  · have hdig := hrun h2
    cases hdw : v.dropWhile (· = '\n') with
    | nil => exact absurd hdw hne
    | cons d w =>
      rw [hdw] at hdig
      rw [List.cons_append, lookahead_cons_nondigit d _ (by simpa using hdig)]
      simp
  · simp [h2]

theorem blankRunSafe_tail (c : Char) (s : Str) (h : blankRunSafe (c :: s) = true) :
    blankRunSafe s = true := by
  unfold blankRunSafe at h
  rw [Bool.and_eq_true] at h
  exact h.2

theorem blankRunSafe_suffix : ∀ (u v : Str),
    blankRunSafe (u ++ v) = true → blankRunSafe v = true := by
  intro u
  induction u with
  | nil => intro v h; exact h
  | cons c u' ih => intro v h; exact ih v (blankRunSafe_tail _ _ h)

theorem blankRunSafe_head (w : Str)
    (h : blankRunSafe ('\n' :: '\n' :: w) = true) :
    ((('\n' :: '\n' :: w).dropWhile (· = '\n')).headD ' ').isDigit = false := by
  unfold blankRunSafe at h
  rw [Bool.and_eq_true] at h
  have h3 : (!((('\n' :: '\n' :: w).dropWhile (· = '\n')).headD ' ').isDigit) = true := h.1
  rwa [Bool.not_eq_true'] at h3

theorem suffixSafe_of_head_ne (c : Char) (t : Str) (hc : c ≠ '\n') :
    suffixSafe (c :: t) := by
  constructor
  · simp [List.dropWhile_cons, hc]
  · intro h2
    rw [List.takeWhile_cons] at h2
    simp [hc] at h2

theorem suffixSafe_single_nl (d : Char) (t : Str) (hd : d ≠ '\n') :
    suffixSafe ('\n' :: d :: t) := by
  constructor
  · simp [List.dropWhile_cons, hd]
  · intro h2
    rw [List.takeWhile_cons, if_pos (by simp), List.takeWhile_cons] at h2
    simp [hd] at h2

theorem wfText_parts {t : Str} (h : wfText t = true) :
    t ≠ [] ∧ pyStrip t = t ∧ '\r' ∉ t ∧ blankRunSafe t = true := by
  simp only [wfText, Bool.and_eq_true, decide_eq_true_eq] at h
  exact ⟨h.1.1.1, h.1.1.2, h.1.2, h.2⟩

theorem wfText_suffixSafe {t : Str} (h : wfText t = true) :
    ∀ u v, t = u ++ v → v ≠ [] → suffixSafe v := by
  obtain ⟨hne, hstrip, _, hbrs⟩ := wfText_parts h
  intro u v huv hv
  cases v with
  | nil => exact absurd rfl hv
  | cons c v' =>
    by_cases hc : c = '\n'
    · subst hc
      cases v' with
      | nil =>
        -- a trailing lone newline contradicts strippedness
        exfalso
        have hlast : t.getLast? = some '\n' := by
          rw [huv, List.getLast?_append_of_ne_nil u (List.cons_ne_nil _ _)]
          rfl
        have := pyStrip_getLast hstrip hlast
        simp [isPySpace] at this
      | cons d w =>
        by_cases hdn : d = '\n'
        · subst hdn
          have hb : blankRunSafe ('\n' :: '\n' :: w) = true :=
            blankRunSafe_suffix u _ (by rw [← huv]; exact hbrs)
          have hdig := blankRunSafe_head w hb
          constructor
          · intro hdw
            rw [List.dropWhile_eq_nil_iff] at hdw
            have hlastmem : ('\n' :: '\n' :: w).getLast (by simp) ∈
                ('\n' :: '\n' :: w) := List.getLast_mem _
            have hlasteq := hdw _ hlastmem
            have hlast : t.getLast? = some (('\n' :: '\n' :: w).getLast (by simp)) := by
              rw [huv, List.getLast?_append_of_ne_nil u (List.cons_ne_nil _ _)]
              exact (List.getLast?_eq_getLast _ _).symm ▸ rfl
            have hns := pyStrip_getLast hstrip hlast
            rw [show (('\n' :: '\n' :: w).getLast (by simp)) = '\n' from by
              simpa using hlasteq] at hns
            simp [isPySpace] at hns
          · intro _
            exact hdig
        · exact suffixSafe_single_nl d w hdn
    · exact suffixSafe_of_head_ne c v' hc

theorem wfEntry_parts {e : SRTEntry} (h : wfEntry e = true) :
    0 ≤ e.index ∧ wfTime e.start_time = true ∧ wfTime e.end_time = true ∧
      wfText e.text = true := by
  simp only [wfEntry, Bool.and_eq_true, decide_eq_true_eq] at h
  exact ⟨h.1.1.1, h.1.1.2, h.1.2, h.2⟩

theorem wfTime_parts {s : Str} (h : wfTime s = true) :
    isTimeChunk s = true ∧ ∀ c ∈ s, goodTimeChar c = true := by
  simp only [wfTime, Bool.and_eq_true, List.all_eq_true] at h
  exact ⟨h.1, h.2⟩

theorem isTimeChunk_length {s : Str} (h : isTimeChunk s = true) : s.length = 12 := by
  unfold isTimeChunk at h
  split at h
  · simp
  · exact absurd h (by simp)

theorem arrow_mem_ne_nl {c : Char} (h : c ∈ chars " --> ") : c ≠ '\n' := by
  intro hc
  subst hc
  revert h
  decide

theorem timeline_mem_ne_nl {e : SRTEntry} (hst : wfTime e.start_time = true)
    (het : wfTime e.end_time = true) :
    ∀ c ∈ e.start_time ++ chars " --> " ++ e.end_time, c ≠ '\n' := by
  intro c hc
  rw [List.append_assoc, List.mem_append, List.mem_append] at hc
  rcases hc with hc | hc | hc
  · exact ((wfTime_parts hst).2 c hc |> goodTimeChar_facts).1
  · exact arrow_mem_ne_nl hc
  · exact ((wfTime_parts het).2 c hc |> goodTimeChar_facts).1

theorem intStr_nonneg {i : Int} (h : 0 ≤ i) : intStr i = natDigs i.toNat := by
  unfold intStr
  rw [if_neg (by omega)]
  congr 1
  omega

theorem digs_all_digit {e : SRTEntry} (h : 0 ≤ e.index) :
    ∀ c ∈ intStr e.index, c.isDigit = true := by
  rw [intStr_nonneg h]
  exact natDigs_all_digit _

theorem coreOf_normal (e : SRTEntry) :
    coreOf e = intStr e.index ++
      ('\n' :: ((e.start_time ++ chars " --> " ++ e.end_time) ++ '\n' :: e.text)) := by
  simp [coreOf]

theorem text_head_not_nl {t : Str} (h : wfText t = true) :
    ∃ c t', t = c :: t' ∧ c ≠ '\n' := by
  obtain ⟨hne, hstrip, _, _⟩ := wfText_parts h
  cases ht : t with
  | nil => exact absurd ht hne
  | cons c t' =>
    rw [ht] at hstrip
    have := pyStrip_head hstrip
    refine ⟨c, t', rfl, fun hc => ?_⟩
    subst hc
    simp [isPySpace] at this

theorem timeline_head_not_nl {e : SRTEntry} (hst : wfTime e.start_time = true) :
    ∃ d ds, e.start_time ++ chars " --> " ++ e.end_time = d :: ds ∧ d ≠ '\n' := by
  obtain ⟨htc, hgood⟩ := wfTime_parts hst
  cases hs : e.start_time with
  | nil =>
    have := isTimeChunk_length htc
    rw [hs] at this
    simp at this
  | cons d ds =>
    refine ⟨d, ds ++ chars " --> " ++ e.end_time, by simp [hs], ?_⟩
    exact (goodTimeChar_facts (hgood d (by rw [hs]; simp))).1

theorem core_suffixSafe {e : SRTEntry} (h : wfEntry e = true) :
    ∀ u v, coreOf e = u ++ v → v ≠ [] → suffixSafe v := by
  obtain ⟨hidx, hst, het, htxt⟩ := wfEntry_parts h
  intro u v huv hv
  rw [coreOf_normal] at huv
  -- the tail block after the index digits
  obtain ⟨d, ds, htl, hdnl⟩ := timeline_head_not_nl (e := e) hst
  obtain ⟨tc, tt, htext, htcnl⟩ := text_head_not_nl htxt
  have hRsafe : suffixSafe ('\n' ::
      ((e.start_time ++ chars " --> " ++ e.end_time) ++ '\n' :: e.text)) := by
    rw [htl]
    exact suffixSafe_single_nl d _ hdnl
  have hNLtextSafe : suffixSafe ('\n' :: e.text) := by
    rw [htext]
    exact suffixSafe_single_nl tc _ htcnl
  rcases List.append_eq_append_iff.1 huv with ⟨a', hu, hR⟩ | ⟨c', hdigs, hvR⟩
  · -- v is a suffix of the '\n' :: (timeline ++ '\n' :: text) tail
    cases a' with
    | nil =>
      rw [List.nil_append] at hR
      rw [← hR]
      exact hRsafe
    | cons x a'' =>
      have hx : x = '\n' := by
        have := congrArg List.head? hR
        simp at this
        exact this.symm
      subst hx
      rw [List.cons_append] at hR
      have hR2 : (e.start_time ++ chars " --> " ++ e.end_time) ++ '\n' :: e.text =
          a'' ++ v := by
        injection hR
      rcases List.append_eq_append_iff.1 hR2 with ⟨w, ha'', hw⟩ | ⟨w, htl2, hvw⟩
      · -- '\n' :: text = w ++ v
        cases w with
        | nil =>
          rw [List.nil_append] at hw
          rw [← hw]
          exact hNLtextSafe
        | cons y w' =>
          have hy : y = '\n' := by
            have := congrArg List.head? hw
            simp at this
            exact this.symm
          subst hy
          rw [List.cons_append] at hw
          have htextw : e.text = w' ++ v := by injection hw
          exact wfText_suffixSafe htxt w' v htextw hv
      · -- v = w ++ '\n' :: text with w a suffix of the timeline
        cases w with
        | nil =>
          rw [List.nil_append] at hvw
          rw [hvw]
          exact hNLtextSafe
        | cons y w'' =>
          have hymem : y ∈ e.start_time ++ chars " --> " ++ e.end_time := by
            rw [htl2]
            simp
          have hynl : y ≠ '\n' := timeline_mem_ne_nl hst het y hymem
          rw [hvw, List.cons_append]
          exact suffixSafe_of_head_ne y _ hynl
  · -- v = c' ++ tail with c' a suffix of the digits
    cases c' with
    | nil =>
      rw [List.nil_append] at hvR
      rw [hvR]
      exact hRsafe
    | cons x c'' =>
      have hxmem : x ∈ intStr e.index := by
        rw [hdigs]
        simp
      have hxd : x.isDigit = true := digs_all_digit hidx x hxmem
      rw [hvR, List.cons_append]
      exact suffixSafe_of_head_ne x _ (isDigit_ne_of hxd '\n' (by decide))

theorem splitBlocksF_nil (f : Nat) (acc : Str) :
    splitBlocksF f [] acc = [acc.reverse] := by
  cases f <;> rfl

theorem isBlockSep_head_nl {c : Char} {cs : Str} (h : isBlockSep (c :: cs) = true) :
    c = '\n' := by
  by_contra hc
  rw [isBlockSep_cons_of_ne c cs hc] at h
  exact Bool.noConfusion h

theorem dropWhile_append_all (p : Char → Bool) :
    ∀ (a b : Str), (∀ c ∈ a, p c = true) → (a ++ b).dropWhile p = b.dropWhile p := by
  intro a
  induction a with
  | nil => intro b _; rfl
  | cons c a' ih =>
    intro b h
    rw [List.cons_append, List.dropWhile_cons, if_pos (h c (List.mem_cons_self _ _))]
    exact ih b (fun x hx => h x (List.mem_cons_of_mem _ hx))

theorem splitBlocksF_irrel : ∀ (f g : Nat) (s acc : Str),
    s.length ≤ f → s.length ≤ g → splitBlocksF f s acc = splitBlocksF g s acc := by
  intro f
  induction f with
  | zero =>
    intro g s acc hf _
    have : s = [] := by
      cases s
      · rfl
      · simp at hf
    subst this
    rw [splitBlocksF_nil, splitBlocksF_nil]
  | succ f ih =>
    intro g s acc hf hg
    cases s with
    | nil => rw [splitBlocksF_nil, splitBlocksF_nil]
    | cons c cs =>
      cases g with
      | zero => simp at hg
      | succ g' =>
        simp only [splitBlocksF]
        by_cases hsep : isBlockSep (c :: cs) = true
        · rw [if_pos hsep, if_pos hsep]
          have hc := isBlockSep_head_nl hsep
          subst hc
          have hdrop : ('\n' :: cs).dropWhile (· = '\n') = cs.dropWhile (· = '\n') := by
            rw [List.dropWhile_cons, if_pos (by simp)]
          rw [hdrop]
          have hlen : (cs.dropWhile (· = '\n')).length ≤ cs.length :=
            length_dropWhile_le _ _
          exact congrArg (acc.reverse :: ·)
            (ih g' _ [] (by simp at hf; omega) (by simp at hg; omega))
        · rw [if_neg hsep, if_neg hsep]
          exact ih g' cs (c :: acc) (by simp at hf; omega) (by simp at hg; omega)

theorem splitBlocksF_safe (s : Str)
    (hsafe : ∀ u v, s = u ++ v → v ≠ [] → suffixSafe v) :
    ∀ (rest acc : Str) (f : Nat), s.length + rest.length ≤ f →
      splitBlocksF f (s ++ rest) acc =
        splitBlocksF rest.length rest (s.reverse ++ acc) := by
  induction s with
  | nil =>
    intro rest acc f hf
    simp only [List.nil_append, List.reverse_nil]
    exact splitBlocksF_irrel f rest.length rest acc (by simpa using hf) (le_refl _)
  | cons c s' ih =>
    intro rest acc f hf
    cases f with
    | zero => simp at hf
    | succ f' =>
      rw [List.cons_append]
      simp only [splitBlocksF]
      have hsep : isBlockSep (c :: (s' ++ rest)) = false := by
        have hss := hsafe [] (c :: s') rfl (by simp)
        have h2 := isBlockSep_false_of_safe (c :: s') rest hss
        rwa [List.cons_append] at h2
      rw [if_neg (by simp [hsep])]
      have hrec := ih (fun u v huv hv => hsafe (c :: u) v (by rw [huv]; rfl) hv)
        rest (c :: acc) f' (by simp at hf ⊢; omega)
      rw [hrec]
      congr 1
      simp

theorem splitBlocksF_sep_step (ds t acc : Str) (f : Nat)
    (hne : ds ≠ []) (hdig : ∀ c ∈ ds, c.isDigit = true) :
    splitBlocksF (f + 1) ('\n' :: '\n' :: (ds ++ '\n' :: t)) acc =
      acc.reverse :: splitBlocksF f (ds ++ '\n' :: t) [] := by
  obtain ⟨d, ds', hds⟩ : ∃ d ds', ds = d :: ds' := by
    cases ds with
    | nil => exact absurd rfl hne
    | cons d ds' => exact ⟨d, ds', rfl⟩
  have hd : d.isDigit = true := hdig d (by rw [hds]; simp)
  have hdnl : d ≠ '\n' := isDigit_ne_of hd '\n' (by decide)
  have hdrop : ('\n' :: '\n' :: (ds ++ '\n' :: t)).dropWhile (· = '\n') =
      ds ++ '\n' :: t := by
    rw [hds, List.cons_append]
    simp [List.dropWhile_cons, hdnl]
  have hsep : isBlockSep ('\n' :: '\n' :: (ds ++ '\n' :: t)) = true := by
    unfold isBlockSep
    rw [hdrop]
    have htw : (('\n' :: '\n' :: (ds ++ '\n' :: t)).takeWhile (· = '\n')).length ≥ 2 := by
      rw [hds, List.cons_append]
      simp [List.takeWhile_cons, hdnl]
    have hla : lookaheadIndex (ds ++ '\n' :: t) = true := by
      unfold lookaheadIndex
      rw [dropWhile_append_all Char.isDigit ds _ hdig]
      have h1 : (ds ++ '\n' :: t).takeWhile Char.isDigit ≠ [] := by
        rw [hds, List.cons_append, List.takeWhile_cons, if_pos hd]
        simp
      have h2 : (('\n' :: t).dropWhile Char.isDigit) = '\n' :: t := by
        rw [List.dropWhile_cons, if_neg (by decide)]
      rw [h2]
      simp only [List.takeWhile_cons]
      rw [if_pos (by simp [isPySpace])]
      simp [h1]
    simp [htw, hla]
  simp only [splitBlocksF]
  rw [if_pos (by simp [hsep]), hdrop]

theorem serializeEntry_eq (e : SRTEntry) :
    serializeEntry e = coreOf e ++ chars "\n\n" := by
  simp [serializeEntry, coreOf]

theorem write_content_eq : ∀ (e : SRTEntry) (es : List SRTEntry),
    write_srt_content (e :: es) =
      joinBlocks ((e :: es).map coreOf) ++ chars "\n\n" := by
  intro e es
  induction es generalizing e with
  | nil =>
    simp [write_srt_content, joinBlocks, serializeEntry_eq]
  | cons e2 es' ih =>
    have h1 : write_srt_content (e :: e2 :: es') =
        serializeEntry e ++ write_srt_content (e2 :: es') := by
      simp [write_srt_content]
    rw [h1, ih e2, serializeEntry_eq]
    have h2 : joinBlocks ((e :: e2 :: es').map coreOf) =
        coreOf e ++ '\n' :: '\n' :: joinBlocks ((e2 :: es').map coreOf) := rfl
    rw [h2]
    simp [chars]

theorem intStr_ne_nil (i : Int) : intStr i ≠ [] := by
  unfold intStr
  split
  · simp
  · exact natDigs_ne_nil _

theorem coreOf_ne_nil (e : SRTEntry) : coreOf e ≠ [] := by
  rw [coreOf_normal]
  simp [intStr_ne_nil]

theorem coreOf_head? (e : SRTEntry) : (coreOf e).head? = (intStr e.index).head? := by
  rw [coreOf_normal]
  exact List.head?_append_of_ne_nil _ (intStr_ne_nil _)

theorem coreOf_head_digit {e : SRTEntry} (h : 0 ≤ e.index) :
    ∀ c, (coreOf e).head? = some c → c.isDigit = true := by
  intro c hc
  rw [coreOf_head?] at hc
  exact digs_all_digit h c (List.mem_of_mem_head? hc)

theorem coreOf_getLast? (e : SRTEntry) (htne : e.text ≠ []) :
    (coreOf e).getLast? = e.text.getLast? := by
  rw [coreOf_normal]
  rw [List.getLast?_append_of_ne_nil _ (List.cons_ne_nil _ _)]
  have h1 : ('\n' :: ((e.start_time ++ chars " --> " ++ e.end_time) ++ '\n' :: e.text)) =
      ['\n'] ++ ((e.start_time ++ chars " --> " ++ e.end_time) ++ '\n' :: e.text) := rfl
  rw [h1, List.getLast?_append_of_ne_nil _ (by simp),
    List.getLast?_append_of_ne_nil _ (List.cons_ne_nil _ _)]
  have h2 : ('\n' :: e.text) = ['\n'] ++ e.text := rfl
  rw [h2, List.getLast?_append_of_ne_nil _ htne]

theorem joinBlocks_ne_nil : ∀ (b : Str) (bs : List Str), b ≠ [] →
    joinBlocks (b :: bs) ≠ [] := by
  intro b bs hb
  cases bs with
  | nil => exact hb
  | cons b2 bs' =>
    show b ++ '\n' :: '\n' :: joinBlocks (b2 :: bs') ≠ []
    simp

theorem joinBlocks_head? (b : Str) (bs : List Str) (hb : b ≠ []) :
    (joinBlocks (b :: bs)).head? = b.head? := by
  cases bs with
  | nil => rfl
  | cons b2 bs' =>
    show (b ++ '\n' :: '\n' :: joinBlocks (b2 :: bs')).head? = b.head?
    exact List.head?_append_of_ne_nil _ hb

theorem joinBlocks_getLast? : ∀ (bs : List Str) (b : Str),
    (∀ x ∈ b :: bs, x ≠ ([] : Str)) →
    ∃ lb ∈ b :: bs, (joinBlocks (b :: bs)).getLast? = lb.getLast? := by
  intro bs
  induction bs with
  | nil =>
    intro b _
    exact ⟨b, by simp, rfl⟩
  | cons b2 bs' ih =>
    intro b hall
    obtain ⟨lb, hmem, heq⟩ := ih b2 (fun x hx => hall x (List.mem_cons_of_mem _ hx))
    refine ⟨lb, List.mem_cons_of_mem _ hmem, ?_⟩
    show (b ++ '\n' :: '\n' :: joinBlocks (b2 :: bs')).getLast? = lb.getLast?
    rw [List.getLast?_append_of_ne_nil _ (List.cons_ne_nil _ _)]
    have h1 : ('\n' :: '\n' :: joinBlocks (b2 :: bs')) =
        ['\n', '\n'] ++ joinBlocks (b2 :: bs') := rfl
    rw [h1, List.getLast?_append_of_ne_nil _
      (joinBlocks_ne_nil b2 bs' (hall b2 (by simp)))]
    exact heq

theorem rstrip_append_spaces (s sp : Str) (h : ∀ c ∈ sp, isPySpace c = true) :
    rstrip (s ++ sp) = rstrip s := by
  unfold rstrip
  rw [List.reverse_append]
  rw [dropWhile_append_all isPySpace sp.reverse s.reverse
    (fun c hc => h c (List.mem_reverse.1 hc))]

theorem arrow_mem_ne_cr {c : Char} (h : c ∈ chars " --> ") : c ≠ '\r' := by
  intro hc
  subst hc
  revert h
  decide

theorem coreOf_no_cr {e : SRTEntry} (h : wfEntry e = true) : '\r' ∉ coreOf e := by
  obtain ⟨hidx, hst, het, htxt⟩ := wfEntry_parts h
  obtain ⟨_, _, hcr, _⟩ := wfText_parts htxt
  rw [coreOf_normal]
  intro hmem
  rcases List.mem_append.1 hmem with hd | hm
  · exact absurd (digs_all_digit hidx _ hd) (by decide)
  · rcases List.mem_cons.1 hm with h1 | hm2
    · exact absurd h1 (by decide)
    · rcases List.mem_append.1 hm2 with htl | hm3
      · rcases List.mem_append.1 htl with hse | he
        · rcases List.mem_append.1 hse with hs | ha
          · exact ((wfTime_parts hst).2 _ hs |> goodTimeChar_facts).2.1 rfl
          · exact arrow_mem_ne_cr ha rfl
        · exact ((wfTime_parts het).2 _ he |> goodTimeChar_facts).2.1 rfl
      · rcases List.mem_cons.1 hm3 with h2 | ht
        · exact absurd h2 (by decide)
        · exact hcr ht

theorem replaceCRLF_id : ∀ s : Str, '\r' ∉ s → replaceCRLF s = s := by
  intro s
  induction s with
  | nil => intro _; rfl
  | cons c s' ih =>
    intro h
    have hc : c ≠ '\r' := fun hh => h (hh ▸ List.mem_cons_self c s')
    have hs' : '\r' ∉ s' := fun hh => h (List.mem_cons_of_mem _ hh)
    rw [replaceCRLF.eq_def]
    split
    · next heq =>
      injection heq with h1 _
      exact absurd h1 hc
    · next x rest heq =>
      injection heq with h1 h2
      subst h1
      subst h2
      rw [ih hs']
    · next heq =>
      exact absurd heq (by simp)

theorem joinBlocks_mem : ∀ (bs : List Str) (c : Char), c ∈ joinBlocks bs →
    (∃ b ∈ bs, c ∈ b) ∨ c = '\n' := by
  intro bs
  induction bs with
  | nil =>
    intro c hc
    simp [joinBlocks] at hc
  | cons b bs' ih =>
    intro c hc
    cases bs' with
    | nil => exact Or.inl ⟨b, by simp, hc⟩
    | cons b2 bs'' =>
      have hJ : joinBlocks (b :: b2 :: bs'') =
          b ++ '\n' :: '\n' :: joinBlocks (b2 :: bs'') := rfl
      rw [hJ] at hc
      simp only [List.mem_append, List.mem_cons] at hc
      rcases hc with hc | hc | hc | hc
      · exact Or.inl ⟨b, by simp, hc⟩
      · exact Or.inr hc
      · exact Or.inr hc
      · rcases ih c hc with ⟨b3, hb3, hc3⟩ | hnl
        · exact Or.inl ⟨b3, List.mem_cons_of_mem _ hb3, hc3⟩
        · exact Or.inr hnl

theorem write_no_cr (es : List SRTEntry) (hwf : es.all wfEntry = true) :
    '\r' ∉ write_srt_content es := by
  cases es with
  | nil => simp [write_srt_content]
  | cons e es' =>
    rw [write_content_eq]
    intro hmem
    rcases List.mem_append.1 hmem with hm | hm
    · rcases joinBlocks_mem _ _ hm with ⟨b, hb, hcb⟩ | hnl
      · obtain ⟨e', he', rfl⟩ := List.mem_map.1 hb
        have hwfe : wfEntry e' = true := by
          rw [List.all_eq_true] at hwf
          exact hwf e' he'
        exact coreOf_no_cr hwfe hcb
      · exact absurd hnl (by decide)
    · revert hm
      decide

theorem lstrip_of_head (s : Str)
    (h : ∀ c, s.head? = some c → isPySpace c = false) : lstrip s = s := by
  cases s with
  | nil => rfl
  | cons c t => exact lstrip_cons_of t (h c rfl)

theorem rstrip_of_getLast (s : Str)
    (h : ∀ c, s.getLast? = some c → isPySpace c = false) : rstrip s = s := by
  cases s with
  | nil => rfl
  | cons c t =>
    unfold rstrip
    cases hrev : (c :: t).reverse with
    | nil => exact absurd (congrArg List.length hrev) (by simp)
    | cons d rs =>
      have hd : (c :: t).getLast? = some d := by
        rw [← List.head?_reverse, hrev]
        rfl
      simp only [List.dropWhile_cons, h d hd]
      rw [if_neg (by simp), ← hrev, List.reverse_reverse]

theorem normalized_write (e : SRTEntry) (es : List SRTEntry)
    (hwf : (e :: es).all wfEntry = true) :
    pyStrip (replaceCRLF (write_srt_content (e :: es))) =
      joinBlocks ((e :: es).map coreOf) := by
  have hwall : ∀ x ∈ e :: es, wfEntry x = true := List.all_eq_true.1 hwf
  rw [replaceCRLF_id _ (write_no_cr _ hwf), write_content_eq]
  have hJne : joinBlocks ((e :: es).map coreOf) ≠ [] := by
    show joinBlocks (coreOf e :: es.map coreOf) ≠ []
    exact joinBlocks_ne_nil _ _ (coreOf_ne_nil e)
  unfold pyStrip
  rw [lstrip_of_head _ (by
    intro c hc
    rw [List.head?_append_of_ne_nil _ hJne] at hc
    have h2 : (joinBlocks (coreOf e :: es.map coreOf)).head? = some c := hc
    rw [joinBlocks_head? _ _ (coreOf_ne_nil e)] at h2
    exact isDigit_not_space (coreOf_head_digit (wfEntry_parts (hwall e (by simp))).1 c h2))]
  rw [rstrip_append_spaces _ _ (by decide)]
  apply rstrip_of_getLast
  intro c hc
  obtain ⟨lb, hlb, heq⟩ := joinBlocks_getLast? (es.map coreOf) (coreOf e) (by
    intro x hx
    rcases List.mem_cons.1 hx with hx1 | hx2
    · subst hx1
      exact coreOf_ne_nil e
    · obtain ⟨e', _, rfl⟩ := List.mem_map.1 hx2
      exact coreOf_ne_nil e')
  have heq2 : (joinBlocks ((e :: es).map coreOf)).getLast? = lb.getLast? := heq
  rw [heq2] at hc
  have hlb2 : ∃ e', e' ∈ e :: es ∧ lb = coreOf e' := by
    rcases List.mem_cons.1 hlb with hx1 | hx2
    · exact ⟨e, by simp, hx1⟩
    · obtain ⟨e', he', rfl⟩ := List.mem_map.1 hx2
      exact ⟨e', List.mem_cons_of_mem _ he', rfl⟩
  obtain ⟨e', he', rfl⟩ := hlb2
  obtain ⟨_, _, _, htxt⟩ := wfEntry_parts (hwall e' he')
  obtain ⟨htne, htstrip, _, _⟩ := wfText_parts htxt
  rw [coreOf_getLast? e' htne] at hc
  exact pyStrip_getLast htstrip hc

theorem splitBlocks_joinBlocks : ∀ (es : List SRTEntry) (e : SRTEntry),
    (∀ x ∈ e :: es, wfEntry x = true) →
    splitBlocks (joinBlocks ((e :: es).map coreOf)) = (e :: es).map coreOf := by
  intro es
  induction es with
  | nil =>
    intro e hwf
    show splitBlocks (coreOf e) = [coreOf e]
    unfold splitBlocks
    have htrav := splitBlocksF_safe (coreOf e) (core_suffixSafe (hwf e (by simp)))
      [] [] (coreOf e).length (by simp)
    rw [List.append_nil] at htrav
    rw [htrav, splitBlocksF_nil]
    simp
  | cons e2 es' ih =>
    intro e hwf
    have hJ : joinBlocks ((e :: e2 :: es').map coreOf) =
        coreOf e ++ '\n' :: '\n' :: joinBlocks ((e2 :: es').map coreOf) := rfl
    have hidx2 : 0 ≤ e2.index := (wfEntry_parts (hwf e2 (by simp))).1
    obtain ⟨t2, ht2⟩ : ∃ t2, joinBlocks ((e2 :: es').map coreOf) =
        intStr e2.index ++ '\n' :: t2 := by
      cases es' with
      | nil =>
        refine ⟨(e2.start_time ++ chars " --> " ++ e2.end_time) ++ '\n' :: e2.text, ?_⟩
        show coreOf e2 = _
        rw [coreOf_normal]
      | cons e3 es'' =>
        have h3 : joinBlocks ((e2 :: e3 :: es'').map coreOf) =
            coreOf e2 ++ '\n' :: '\n' :: joinBlocks ((e3 :: es'').map coreOf) := rfl
        refine ⟨((e2.start_time ++ chars " --> " ++ e2.end_time) ++ '\n' :: e2.text) ++
          '\n' :: '\n' :: joinBlocks ((e3 :: es'').map coreOf), ?_⟩
        rw [h3, coreOf_normal]
        simp
    have hdigs2 : ∀ c ∈ intStr e2.index, c.isDigit = true := digs_all_digit hidx2
    unfold splitBlocks
    rw [hJ, ht2]
    have hlen : (coreOf e ++ '\n' :: '\n' :: (intStr e2.index ++ '\n' :: t2)).length =
        (coreOf e).length + ('\n' :: '\n' :: (intStr e2.index ++ '\n' :: t2)).length := by
      simp
    rw [hlen]
    have htrav := splitBlocksF_safe (coreOf e) (core_suffixSafe (hwf e (by simp)))
      ('\n' :: '\n' :: (intStr e2.index ++ '\n' :: t2)) []
      ((coreOf e).length + ('\n' :: '\n' :: (intStr e2.index ++ '\n' :: t2)).length)
      (le_refl _)
    rw [htrav]
    have hlen2 : ('\n' :: '\n' :: (intStr e2.index ++ '\n' :: t2)).length =
        ((intStr e2.index ++ '\n' :: t2).length + 1) + 1 := by
      simp
    rw [hlen2]
    rw [splitBlocksF_sep_step _ _ _ _ (intStr_ne_nil _) hdigs2]
    have hirrel := splitBlocksF_irrel ((intStr e2.index ++ '\n' :: t2).length + 1)
      ((intStr e2.index ++ '\n' :: t2).length) (intStr e2.index ++ '\n' :: t2) []
      (by omega) (le_refl _)
    rw [hirrel, ← ht2]
    have hihs := ih e2 (fun x hx => hwf x (List.mem_cons_of_mem _ hx))
    unfold splitBlocks at hihs
    rw [hihs]
    simp

theorem lstrip_eq_dropWhile (s : Str) : lstrip s = s.dropWhile isPySpace := rfl

theorem matchTimeLine_canonical {s1 s2 : Str} (h1 : wfTime s1 = true)
    (h2 : wfTime s2 = true) :
    matchTimeLine (s1 ++ chars " --> " ++ s2) = some (s1, s2) := by
  obtain ⟨htc1, hg1⟩ := wfTime_parts h1
  obtain ⟨htc2, hg2⟩ := wfTime_parts h2
  have hlen1 : s1.length = 12 := isTimeChunk_length htc1
  have hlen2 : s2.length = 12 := isTimeChunk_length htc2
  unfold matchTimeLine
  have htake : ((s1 ++ chars " --> " ++ s2).take 12) = s1 := by
    rw [List.append_assoc, ← hlen1, List.take_left]
  have hdrop : ((s1 ++ chars " --> " ++ s2).drop 12) = chars " --> " ++ s2 := by
    rw [List.append_assoc, ← hlen1, List.drop_left]
  rw [htake, hdrop, if_pos htc1]
  have harrow : (chars " --> " ++ s2).dropWhile isPySpace =
      '-' :: '-' :: '>' :: (' ' :: s2) := by
    show ((' ' :: '-' :: '-' :: '>' :: ' ' :: s2).dropWhile isPySpace) = _
    rw [List.dropWhile_cons, if_pos (by decide), List.dropWhile_cons,
      if_neg (by decide)]
  rw [harrow]
  have hs2 : (' ' :: s2).dropWhile isPySpace = s2 := by
    rw [List.dropWhile_cons, if_pos (by decide), ← lstrip_eq_dropWhile]
    apply lstrip_of_head
    intro c hc
    exact (goodTimeChar_facts (hg2 c (List.mem_of_mem_head? hc))).2.2.2
  show (if isTimeChunk (((' ' :: s2).dropWhile isPySpace).take 12) = true then
      some (s1, ((' ' :: s2).dropWhile isPySpace).take 12) else none) = some (s1, s2)
  rw [hs2, ← hlen2, List.take_length, if_pos htc2]

theorem dotsToCommas_id {s : Str} (h : ∀ c ∈ s, goodTimeChar c = true) :
    dotsToCommas s = s := by
  unfold dotsToCommas
  have heach : ∀ c ∈ s, (if c = '.' then ',' else c) = id c := by
    intro c hc
    exact if_neg ((goodTimeChar_facts (h c hc)).2.2.1)
  rw [List.map_congr_left heach, List.map_id]

theorem parseBlock_core {e : SRTEntry} (h : wfEntry e = true) :
    parseBlock (coreOf e) = some e := by
  obtain ⟨hidx, hst, het, htxt⟩ := wfEntry_parts h
  obtain ⟨htne, htstrip, _, _⟩ := wfText_parts htxt
  have hstrip : pyStrip (coreOf e) = coreOf e := by
    apply pyStrip_eq_self
    · intro c hc
      exact isDigit_not_space (coreOf_head_digit hidx c hc)
    · intro c hc
      rw [coreOf_getLast? e htne] at hc
      exact pyStrip_getLast htstrip hc
  have hdigs_nl : ∀ c ∈ intStr e.index, c ≠ '\n' :=
    fun c hc => isDigit_ne_of (digs_all_digit hidx c hc) '\n' (by decide)
  have hlines : splitLines (coreOf e) =
      intStr e.index :: (e.start_time ++ chars " --> " ++ e.end_time) ::
        splitLines e.text := by
    rw [coreOf_normal]
    unfold splitLines
    rw [splitSep_append_cons '\n' (intStr e.index) hdigs_nl]
    rw [splitSep_append_cons '\n' _ (timeline_mem_ne_nl hst het)]
  unfold parseBlock
  rw [hstrip, if_neg (coreOf_ne_nil e)]
  dsimp only
  rw [hlines]
  have htlen : ¬((intStr e.index :: (e.start_time ++ chars " --> " ++ e.end_time) ::
      splitLines e.text).length < 3) := by
    simp only [List.length_cons]
    have := List.length_pos_of_ne_nil (splitSep_ne_nil '\n' e.text)
    unfold splitLines
    omega
  rw [if_neg htlen]
  have hget0 : (intStr e.index :: (e.start_time ++ chars " --> " ++ e.end_time) ::
      splitLines e.text).getD 0 [] = intStr e.index := rfl
  have hget1 : (intStr e.index :: (e.start_time ++ chars " --> " ++ e.end_time) ::
      splitLines e.text).getD 1 [] =
      e.start_time ++ chars " --> " ++ e.end_time := rfl
  rw [hget0, hget1, intStr_nonneg hidx, parseInt_natDigs,
    matchTimeLine_canonical hst het]
  dsimp only
  have hdrop2 : (natDigs e.index.toNat ::
      (e.start_time ++ chars " --> " ++ e.end_time) ::
      splitLines e.text).drop 2 = splitLines e.text := rfl
  rw [hdrop2]
  unfold splitLines
  rw [joinSep_splitSep '\n' e.text, htstrip,
    dotsToCommas_id (wfTime_parts hst).2, dotsToCommas_id (wfTime_parts het).2,
    Int.toNat_of_nonneg hidx]

theorem filterMap_parseBlock (es : List SRTEntry)
    (h : ∀ x ∈ es, wfEntry x = true) :
    (es.map coreOf).filterMap parseBlock = es := by
  induction es with
  | nil => rfl
  | cons e es' ih =>
    rw [List.map_cons, List.filterMap_cons, parseBlock_core (h e (by simp))]
    rw [ih (fun x hx => h x (List.mem_cons_of_mem _ hx))]

theorem srt_roundtrip (es : List SRTEntry) (h : es.all wfEntry = true) :
    parse_srt_content (write_srt_content es) = es := by
  cases es with
  | nil => rfl
  | cons e es' =>
    have hall := List.all_eq_true.1 h
    unfold parse_srt_content
    rw [if_neg (by
      rw [write_content_eq]
      simp [joinBlocks_ne_nil _ _ (coreOf_ne_nil e)])]
    dsimp only
    rw [normalized_write e es' h, splitBlocks_joinBlocks es' e hall]
    exact filterMap_parseBlock _ hall

/-! Claim theorems. -/

/-- Claim C7: for every well-formed entry list — non-negative indices,
canonical comma-form times, and stripped, CR-free text whose blank-line runs
are not followed by a digit line (the shape the block-splitting regex leaves
intact), including entries whose text contains embedded line breaks —
serializing and re-parsing returns the original list:
`parse(serialize(entries)) = entries`. -/
theorem claim7_parse_serialize_roundtrip (entries : List SRTEntry)
    (h : entries.all wfEntry = true) :
    parse_srt_content (write_srt_content entries) = entries :=
  srt_roundtrip entries h

/-- Witness for C7 on a two-entry list with multi-line text. -/
theorem claim7_witness :
    parse_srt_content (write_srt_content
      [⟨1, chars "00:00:01,000", chars "00:00:02,000", chars "Hello\nworld"⟩,
       ⟨2, chars "00:00:03,500", chars "00:00:04,000", chars "bye"⟩]) =
      [⟨1, chars "00:00:01,000", chars "00:00:02,000", chars "Hello\nworld"⟩,
       ⟨2, chars "00:00:03,500", chars "00:00:04,000", chars "bye"⟩] :=
  claim7_parse_serialize_roundtrip
    [⟨1, chars "00:00:01,000", chars "00:00:02,000", chars "Hello\nworld"⟩,
     ⟨2, chars "00:00:03,500", chars "00:00:04,000", chars "bye"⟩] (by decide)

/-- Claim C8: a cue whose text contains an interior blank line, followed by
another valid block, parses back as one entry with the blank line retained
in its text, not as two entries: the parse of the serialized two-entry list
is exactly the two original entries. -/
theorem claim8_interior_blank_line (e1 e2 : SRTEntry) (h1 : wfEntry e1 = true)
    (h2 : wfEntry e2 = true) (a b : Str)
    (htext : e1.text = a ++ '\n' :: '\n' :: b) :
    parse_srt_content (write_srt_content [e1, e2]) = [e1, e2] :=
  srt_roundtrip [e1, e2] (by simp [List.all_cons, h1, h2])

/-- Witness for C8: text `"hi\n\nthere"` with an interior blank line,
followed by a second block, parses back as exactly the two entries. -/
theorem claim8_witness :
    parse_srt_content (write_srt_content
      [⟨1, chars "00:00:01,000", chars "00:00:02,000", chars "hi\n\nthere"⟩,
       ⟨2, chars "00:00:03,000", chars "00:00:04,000", chars "bye"⟩]) =
      [⟨1, chars "00:00:01,000", chars "00:00:02,000", chars "hi\n\nthere"⟩,
       ⟨2, chars "00:00:03,000", chars "00:00:04,000", chars "bye"⟩] :=
  claim8_interior_blank_line
    ⟨1, chars "00:00:01,000", chars "00:00:02,000", chars "hi\n\nthere"⟩
    ⟨2, chars "00:00:03,000", chars "00:00:04,000", chars "bye"⟩
    (by decide) (by decide) (chars "hi") (chars "there") (by decide)

/-- Claim C1: for every input text list and every raw response string
(including the empty string), `_parse_gemini_response` returns exactly as
many texts as it was given: the state machine's translations are kept in
their positions, missing positions are padded with the original input text
at the same position, and any excess is truncated. -/
theorem claim1_output_cardinality (raw : Str) (original_texts : List Str) :
    (parse_gemini_response raw original_texts).length = original_texts.length ∧
    (∀ i, (respMachine raw).length ≤ i → i < original_texts.length →
      (parse_gemini_response raw original_texts).getD i [] =
        original_texts.getD i []) ∧
    (∀ i, i < (respMachine raw).length → i < original_texts.length →
      (parse_gemini_response raw original_texts).getD i [] =
        (respMachine raw).getD i []) := by
  unfold parse_gemini_response
  split
  · next hraw =>
    subst hraw
    have hm : respMachine [] = [] := by decide
    refine ⟨rfl, fun i _ _ => rfl, fun i hi _ => ?_⟩
    rw [hm] at hi
    simp at hi
  · next hraw =>
    have hpad := padTranslations_eq (respMachine raw) original_texts
    set ts := respMachine raw with hts
    set os := original_texts with hos
    have hlen : ((padTranslations ts os).take os.length).length = os.length := by
      rw [hpad]
      simp
      omega
    refine ⟨hlen, fun i hi hio => ?_, fun i hi hio => ?_⟩
    · rw [List.getD_eq_getElem _ _ (by rw [hlen]; exact hio),
        List.getD_eq_getElem _ _ hio]
      have h1 : ∀ (hh : i < ((padTranslations ts os).take os.length).length),
          ((padTranslations ts os).take os.length)[i] = os[i] := by
        intro hh
        rw [List.getElem_take]
        simp only [hpad] at hh ⊢
        rw [List.getElem_append_right hi]
        rw [List.getElem_drop]
        congr 1
        omega
      exact h1 _
    · rw [List.getD_eq_getElem _ _ (by rw [hlen]; exact hio),
        List.getD_eq_getElem _ _ hi]
      have h1 : ∀ (hh : i < ((padTranslations ts os).take os.length).length),
          ((padTranslations ts os).take os.length)[i] = ts[i] := by
        intro hh
        rw [List.getElem_take]
        simp only [hpad] at hh ⊢
        rw [List.getElem_append_left hi]
      exact h1 _

/-- Witness for C1 at a concrete malformed response: the response names only
one of two texts, position 0 takes the parsed translation and position 1
falls back to the original. -/
theorem claim1_witness :
    (parse_gemini_response (chars "1. Halo") [chars "Hello", chars "World"]).getD 1 [] =
        (([chars "Hello", chars "World"] : List Str).getD 1 []) ∧
    (parse_gemini_response (chars "1. Halo") [chars "Hello", chars "World"]).getD 0 [] =
        (respMachine (chars "1. Halo")).getD 0 [] :=
  ⟨(claim1_output_cardinality (chars "1. Halo") [chars "Hello", chars "World"]).2.1
      1 (by decide) (by decide),
   (claim1_output_cardinality (chars "1. Halo") [chars "Hello", chars "World"]).2.2
      0 (by decide) (by decide)⟩

/-- Claim C10 counter-evaluation: the four-segment example of the claim is
reproduced (`Show.2.en.forced.srt` with target `id` yields
`Show.2.id.forced.srt`), but on a conforming five-stem-segment filename the
code mis-places the language slot (`language_index = part_count - 3` indexes
the extension-free stem segments, while the grammar comment counts the
extension): the language becomes the track value `2`, the modifier becomes
the language value `en`, and the real modifier `forced` is dropped, so
formatting does not preserve the modifier segment. -/
theorem claim10_divergence :
    format_output_filename (chars "Show.2.en.forced.srt") (chars "id") =
        chars "Show.2.id.forced.srt" ∧
    (parse_filename (chars "Show.Extra.2.en.forced.srt")).language = some (chars "2") ∧
    (parse_filename (chars "Show.Extra.2.en.forced.srt")).modifier = some (chars "en") ∧
    format_output_filename (chars "Show.Extra.2.en.forced.srt") (chars "id") =
        chars "Show.Extra.id.en.srt" := by decide

theorem matchNumbered_nil (e : Nat) : matchNumbered e [] = none := by
  unfold matchNumbered
  have h : (natDigs e ++ ['.']).isPrefixOf ([] : Str) = false := by
    cases h2 : natDigs e ++ ['.'] with
    | nil => simp at h2
    | cons a l => rfl
  simp [h]

/-- Claim C6: at a line that matches the expected number, the loop step of
`_parse_gemini_response` pushes the pending accumulator onto the output list
precisely when the accumulator is non-empty and the output length equals
`expected_number - 2` (stated over the integers as `length + 2 = expected`),
and otherwise leaves the output list unchanged — so a numbered item can be
flushed at most once even when the response numbering skips or repeats; and
at end of input a non-empty final accumulator is flushed. -/
theorem claim6_flush_guard (s : PState) (rawLine rest : Str)
    (hm : matchNumbered s.expected (pyStrip rawLine) = some rest) :
    ((respStep s rawLine).translations = s.translations ++ [pyStrip s.current] ∧
        s.current ≠ [] ∧ s.translations.length + 2 = s.expected ∨
      (respStep s rawLine).translations = s.translations ∧
        ¬(s.current ≠ [] ∧ s.translations.length + 2 = s.expected)) ∧
    (s.current ≠ [] → respFinish s = s.translations ++ [pyStrip s.current]) := by
  have hne : pyStrip rawLine ≠ [] := by
    intro h0
    rw [h0, matchNumbered_nil] at hm
    exact Option.noConfusion hm
  constructor
  · unfold respStep
    rw [if_neg hne, hm]
    by_cases hg : s.current ≠ [] ∧ s.translations.length + 2 = s.expected
    · left
      exact ⟨by simp [hg], hg⟩
    · right
      exact ⟨by simp [hg], hg⟩
  · intro hcur
    unfold respFinish
    rw [if_pos hcur]

/-- Witness for C6: with one pending translation, accumulator `"a"` and
expected number 2, the line `"2. b"` flushes the accumulator exactly once. -/
theorem claim6_witness :
    ((respStep ⟨[chars "x"], chars "a", 3⟩ (chars "3. b")).translations =
          [chars "x"] ++ [pyStrip (chars "a")] ∧
        chars "a" ≠ [] ∧ [chars "x"].length + 2 = 3 ∨
      (respStep ⟨[chars "x"], chars "a", 3⟩ (chars "3. b")).translations = [chars "x"] ∧
        ¬(chars "a" ≠ [] ∧ [chars "x"].length + 2 = 3)) ∧
    (chars "a" ≠ [] → respFinish ⟨[chars "x"], chars "a", 3⟩ =
        [chars "x"] ++ [pyStrip (chars "a")]) :=
  claim6_flush_guard ⟨[chars "x"], chars "a", 3⟩ (chars "3. b") (chars "b") (by decide)

theorem tbFallback_length : ∀ (ts ls : List Str), (tbFallback ts ls).length = ts.length := by
  intro ts
  induction ts with
  | nil => intro ls; cases ls <;> rfl
  | cons t ts ih =>
    intro ls
    cases ls with
    | nil => simpa [tbFallback] using ih []
    | cons l ls => simpa [tbFallback] using ih ls

theorem tbFallback_getD : ∀ (ts ls : List Str) (i : Nat), i < ts.length →
    (tbFallback ts ls).getD i [] =
      (if i < ls.length then
        (if dropNumbering (pyStrip (ls.getD i [])) = [] then ts.getD i []
         else dropNumbering (pyStrip (ls.getD i [])))
       else ts.getD i []) := by
  intro ts
  induction ts with
  | nil => intro ls i h; simp at h
  | cons t ts ih =>
    intro ls i h
    cases ls with
    | nil =>
      simp only [tbFallback, List.length_nil]
      cases i with
      | zero => simp
      | succ j =>
        have := ih [] j (by simpa using h)
        simpa [tbFallback] using this
    | cons l ls =>
      cases i with
      | zero => simp [tbFallback]
      | succ j =>
        have := ih ls j (by simpa using h)
        simpa [tbFallback] using this

/-- Claim C5: in `translator.py`'s `translate_batch`, when the state
machine's translation count differs from the input count, the result is the
positional fallback: for each input position the corresponding non-blank
response line with any leading `"N. "` marker stripped, and the original
input text wherever the line is missing or strips to nothing. -/
theorem claim5_positional_fallback (rawText : Str) (texts : List Str)
    (hne : (tbMachine (pyStrip rawText)).length ≠ texts.length) :
    (tbParse rawText texts).length = texts.length ∧
    ∀ i, i < texts.length →
      (tbParse rawText texts).getD i [] =
        (if i < (nonBlankLines (pyStrip rawText)).length then
          (if dropNumbering (pyStrip ((nonBlankLines (pyStrip rawText)).getD i [])) = []
           then texts.getD i []
           else dropNumbering (pyStrip ((nonBlankLines (pyStrip rawText)).getD i [])))
         else texts.getD i []) := by
  have hfb : tbParse rawText texts =
      tbFallback texts (nonBlankLines (pyStrip rawText)) := by
    unfold tbParse
    dsimp only
    rw [if_pos hne]
    have hlen : (tbFallback texts (nonBlankLines (pyStrip rawText))).length =
        texts.length := tbFallback_length _ _
    rw [List.take_of_length_le (le_of_eq hlen), padTranslations_eq, hlen,
      List.drop_length, List.append_nil]
  rw [hfb]
  exact ⟨tbFallback_length _ _, fun i hi => tbFallback_getD texts _ i hi⟩

/-- Witness for C5: response `"1. A\nB"` against two input texts — the
machine produces one translation for two texts, so the positional fallback
yields `["A", "B"]`. -/
theorem claim5_witness :
    (tbParse (chars "1. A\nB") [chars "x", chars "y"]).length = 2 ∧
    (tbParse (chars "1. A\nB") [chars "x", chars "y"]).getD 1 [] =
      (if 1 < (nonBlankLines (pyStrip (chars "1. A\nB"))).length then
        (if dropNumbering (pyStrip ((nonBlankLines (pyStrip (chars "1. A\nB"))).getD 1 [])) = []
         then ([chars "x", chars "y"] : List Str).getD 1 []
         else dropNumbering (pyStrip ((nonBlankLines (pyStrip (chars "1. A\nB"))).getD 1 [])))
       else ([chars "x", chars "y"] : List Str).getD 1 []) :=
  ⟨(claim5_positional_fallback (chars "1. A\nB") [chars "x", chars "y"] (by decide)).1,
   (claim5_positional_fallback (chars "1. A\nB") [chars "x", chars "y"] (by decide)).2
      1 (by decide)⟩

/-- Claim C3 counterexample: the claim is false as stated when the first
call's remote response is absent or empty — nothing is cached
(`translate_batch` returns the originals before the cache write), so a
second call with the identical `(texts, target_language, source_language)`
performs a remote call again: the `generate_content` count goes 1, then 2. -/
theorem claim3_counterexample :
    (gem_translate_batch (fun s => s) none [chars "hi"] (chars "id") none
        ⟨[], 0⟩).2.remoteCalls = 1 ∧
    (gem_translate_batch (fun s => s) none [chars "hi"] (chars "id") none
        (gem_translate_batch (fun s => s) none [chars "hi"] (chars "id") none
          ⟨[], 0⟩).2).2.remoteCalls = 2 := by decide

/-- Claim C3 (amended): two calls with identical
`(texts, target_language, source_language)` compute the identical
fingerprint (`get_cache_key` is a function of exactly that triple), and
provided the first call's remote response is non-empty after stripping (so
the raw response is cached), the second call is a cache hit: it returns the
parse of the stored raw response and leaves the state — in particular the
remote-call count — unchanged, for any digest function and any behaviour of
the remote on the second call. -/
theorem gem_translate_batch_hit (h : Str → Str) (remote : Option Str)
    (texts : List Str) (target : Str) (source : Option Str) (st : GemState)
    (htexts : texts ≠ []) (v : Str)
    (hv : cachedResponse st (get_cache_key h texts target source) = some v) :
    gem_translate_batch h remote texts target source st =
      (parse_gemini_response v texts, st) := by
  unfold gem_translate_batch
  rw [if_neg htexts]
  dsimp only
  rw [hv]

theorem gem_translate_batch_miss (h : Str → Str) (r1 : Str)
    (texts : List Str) (target : Str) (source : Option Str) (st : GemState)
    (htexts : texts ≠ []) (hr1 : r1 ≠ [])
    (hv : cachedResponse st (get_cache_key h texts target source) = none) :
    gem_translate_batch h (some r1) texts target source st =
      (parse_gemini_response (pyStrip r1) texts,
        { cache := assocPut
            (assocPut st.cache (get_cache_key h texts target source ++ chars "_debug")
              (batchText texts))
            (get_cache_key h texts target source) (pyStrip r1),
          remoteCalls := st.remoteCalls + 1 }) := by
  unfold gem_translate_batch
  rw [if_neg htexts]
  dsimp only
  rw [hv]
  dsimp only
  rw [if_neg hr1]

theorem claim3_cache_idempotence (h : Str → Str) (r1 : Str) (r2 : Option Str)
    (texts : List Str) (target : Str) (source : Option Str) (st0 : GemState)
    (htexts : texts ≠ []) (hr : pyStrip r1 ≠ []) :
    ∃ v, cachedResponse (gem_translate_batch h (some r1) texts target source st0).2
            (get_cache_key h texts target source) = some v ∧
      gem_translate_batch h r2 texts target source
          (gem_translate_batch h (some r1) texts target source st0).2 =
        (parse_gemini_response v texts,
          (gem_translate_batch h (some r1) texts target source st0).2) := by
  have hr1 : r1 ≠ [] := by
    intro h0
    rw [h0] at hr
    exact hr rfl
  cases hc : cachedResponse st0 (get_cache_key h texts target source) with
  | some v0 =>
    have hfirst := gem_translate_batch_hit h (some r1) texts target source st0 htexts v0 hc
    have hst : (gem_translate_batch h (some r1) texts target source st0).2 = st0 := by
      rw [hfirst]
    rw [hst]
    exact ⟨v0, hc, gem_translate_batch_hit h r2 texts target source st0 htexts v0 hc⟩
  | none =>
    have hfirst := gem_translate_batch_miss h r1 texts target source st0 htexts hr1 hc
    have hhit : cachedResponse (gem_translate_batch h (some r1) texts target source st0).2
        (get_cache_key h texts target source) = some (pyStrip r1) := by
      rw [hfirst]
      unfold cachedResponse assocPut assocGet
      rw [if_pos rfl]
      dsimp only
      rw [if_neg hr]
    exact ⟨pyStrip r1, hhit,
      gem_translate_batch_hit h r2 texts target source _ htexts (pyStrip r1) hhit⟩

/-- Witness for C3 (amended) at a concrete instance: identity digest, first
response `"1. Halo"`, no response available on the second call. -/
theorem claim3_witness :
    ∃ v, cachedResponse (gem_translate_batch (fun s => s) (some (chars "1. Halo"))
            [chars "Hello"] (chars "id") none ⟨[], 0⟩).2
            (get_cache_key (fun s => s) [chars "Hello"] (chars "id") none) = some v ∧
      gem_translate_batch (fun s => s) none [chars "Hello"] (chars "id") none
          (gem_translate_batch (fun s => s) (some (chars "1. Halo"))
            [chars "Hello"] (chars "id") none ⟨[], 0⟩).2 =
        (parse_gemini_response v [chars "Hello"],
          (gem_translate_batch (fun s => s) (some (chars "1. Halo"))
            [chars "Hello"] (chars "id") none ⟨[], 0⟩).2) :=
  claim3_cache_idempotence (fun s => s) (chars "1. Halo") none [chars "Hello"]
    (chars "id") none ⟨[], 0⟩ (by decide) (by decide)

/-- Stepping the retry loop over `k` consecutive retryable failures starting
at `attempt`: the loop sleeps the backoff-formula delay for each of them and
continues at `attempt + k` with the last stored error message. -/
theorem retryGo_shift (cfg : RetryCfg) (o : Nat → Attempt) (j : Nat → ℚ)
    (texts : List Str) :
    ∀ (k attempt : Nat) (le : Option Str),
      attempt + k ≤ cfg.maxRetries →
      (∀ a, attempt ≤ a → a < attempt + k →
        ∃ e m, o a = .exn e m ∧ retryableErr e = true) →
      retryGo cfg o j texts (cfg.maxRetries + 1 - attempt) attempt le =
        ((retryGo cfg o j texts (cfg.maxRetries + 1 - (attempt + k)) (attempt + k)
            (if k = 0 then le else
              match o (attempt + k - 1) with
              | .exn e m => some (errMessage e m)
              | .ok _ => none)).1,
          ((List.range' attempt k).map fun a =>
            backoffDelay cfg.baseDelay cfg.maxDelay a (j a)) ++
          (retryGo cfg o j texts (cfg.maxRetries + 1 - (attempt + k)) (attempt + k)
            (if k = 0 then le else
              match o (attempt + k - 1) with
              | .exn e m => some (errMessage e m)
              | .ok _ => none)).2) := by
  intro k
  induction k with
  | zero =>
    intro attempt le _ _
    simp
  | succ k ih =>
    intro attempt le hbound hfail
    obtain ⟨e, m, hexn, hretry⟩ := hfail attempt (le_refl _) (by omega)
    have hfuel : cfg.maxRetries + 1 - attempt = (cfg.maxRetries - attempt) + 1 := by
      omega
    have hnotlast : attempt ≠ cfg.maxRetries := by omega
    have hadd : attempt + (k + 1) = attempt + 1 + k := by omega
    rw [hfuel]
    simp only [retryGo]
    rw [hexn]
    dsimp only
    rw [if_pos hretry, if_neg hnotlast]
    have hfuel2 : cfg.maxRetries - attempt = cfg.maxRetries + 1 - (attempt + 1) := by
      omega
    rw [hfuel2, ih (attempt + 1) (some (errMessage e m)) (by omega)
      (fun a ha1 ha2 => hfail a (by omega) (by omega))]
    rw [hadd, if_neg (Nat.succ_ne_zero k)]
    cases k with
    | zero =>
      have h0 : attempt + 1 + 0 - 1 = attempt := by omega
      rw [if_pos rfl, h0, hexn]
      rw [List.range'_succ]
      simp
    | succ k2 =>
      rw [if_neg (Nat.succ_ne_zero k2)]
      simp [List.range'_succ]

/-- Claim C2: in `translate_batch_with_retry`, (i) if every attempt up to
`max_retries` raises a retryable error, each failed attempt before the last
sleeps `min(base_delay * 2^attempt + jitter, max_delay)` and the call
returns the original texts, `success = false` and the last error message;
(ii) a `PermissionDenied`/`NotFound` error returns the original texts and
`success = false` immediately, consuming no further attempts and sleeping no
further delay; (iii) retryable failures on every attempt before
`max_retries` followed by a success on attempt `max_retries` return the
successful result with `success = true`. -/
theorem claim2_retry_backoff (cfg : RetryCfg) (o : Nat → Attempt) (j : Nat → ℚ)
    (texts : List Str) (htexts : texts ≠ []) :
    ((∀ a, a ≤ cfg.maxRetries → ∃ e m, o a = .exn e m ∧ retryableErr e = true) →
      ∃ e m, o cfg.maxRetries = .exn e m ∧
        translate_batch_with_retry cfg o j texts =
          ((texts, false, some (errMessage e m)),
            (List.range cfg.maxRetries).map fun a =>
              backoffDelay cfg.baseDelay cfg.maxDelay a (j a))) ∧
    (∀ k m, k ≤ cfg.maxRetries →
      (∀ a, a < k → ∃ e m2, o a = .exn e m2 ∧ retryableErr e = true) →
      (o k = .exn .permissionDenied m ∨ o k = .exn .notFound m) →
      translate_batch_with_retry cfg o j texts =
        ((texts, false, some m),
          (List.range k).map fun a => backoffDelay cfg.baseDelay cfg.maxDelay a (j a))) ∧
    (∀ res, (∀ a, a < cfg.maxRetries → ∃ e m, o a = .exn e m ∧ retryableErr e = true) →
      o cfg.maxRetries = .ok res →
      translate_batch_with_retry cfg o j texts =
        ((res, true, none),
          (List.range cfg.maxRetries).map fun a =>
            backoffDelay cfg.baseDelay cfg.maxDelay a (j a))) := by
  refine ⟨fun hall => ?_, fun k m hk hprev hkerr => ?_, fun res hprev hores => ?_⟩
  · obtain ⟨e, m, he, hre⟩ := hall cfg.maxRetries (le_refl _)
    refine ⟨e, m, he, ?_⟩
    unfold translate_batch_with_retry
    rw [if_neg htexts]
    have hshift := retryGo_shift cfg o j texts cfg.maxRetries 0 none
      (by omega) (fun a h0 h1 => hall a (by omega))
    simp only [Nat.sub_zero, Nat.zero_add] at hshift
    rw [show cfg.maxRetries + 1 - cfg.maxRetries = 0 + 1 from by omega] at hshift
    have hinner : ∀ le', retryGo cfg o j texts (0 + 1) cfg.maxRetries le' =
        ((texts, false, some (errMessage e m)), []) := by
      intro le'
      simp only [retryGo]
      rw [he]
      dsimp only
      rw [if_pos hre]
      simp
    rw [hinner] at hshift
    rw [hshift]
    simp [List.range_eq_range']
  · unfold translate_batch_with_retry
    rw [if_neg htexts]
    have hshift := retryGo_shift cfg o j texts k 0 none
      (by omega) (fun a h0 h1 => hprev a (by omega))
    simp only [Nat.sub_zero, Nat.zero_add] at hshift
    rw [show cfg.maxRetries + 1 - k = (cfg.maxRetries - k) + 1 from by omega] at hshift
    have hinner : ∀ le', retryGo cfg o j texts ((cfg.maxRetries - k) + 1) k le' =
        ((texts, false, some m), []) := by
      intro le'
      simp only [retryGo]
      cases hkerr with
      | inl he =>
        rw [he]
        dsimp only
        rw [if_neg (by decide)]
        rfl
      | inr he =>
        rw [he]
        dsimp only
        rw [if_neg (by decide)]
        rfl
    rw [hinner] at hshift
    rw [hshift]
    simp [List.range_eq_range']
  · unfold translate_batch_with_retry
    rw [if_neg htexts]
    have hshift := retryGo_shift cfg o j texts cfg.maxRetries 0 none
      (by omega) (fun a h0 h1 => hprev a (by omega))
    simp only [Nat.sub_zero, Nat.zero_add] at hshift
    rw [show cfg.maxRetries + 1 - cfg.maxRetries = 0 + 1 from by omega] at hshift
    have hinner : ∀ le', retryGo cfg o j texts (0 + 1) cfg.maxRetries le' =
        ((res, true, none), []) := by
      intro le'
      simp only [retryGo]
      rw [hores]
    rw [hinner] at hshift
    rw [hshift]
    simp [List.range_eq_range']

/-- Witness for C2 at a concrete configuration (`max_retries = 2`,
`base_delay = 1`, `max_delay = 60`, zero jitter): (i) three rate-limit
failures exhaust the retries; (ii) a `PermissionDenied` on the first attempt
stops immediately; (iii) two transient failures then a success succeed. -/
theorem claim2_witness :
    (∃ e m, (fun _ : Nat => Attempt.exn .resourceExhausted (chars "rl")) 2 = .exn e m ∧
      translate_batch_with_retry ⟨2, 1, 60⟩
          (fun _ => Attempt.exn .resourceExhausted (chars "rl")) (fun _ => 0) [chars "t"] =
        (([chars "t"], false, some (errMessage e m)),
          (List.range 2).map fun a => backoffDelay 1 60 a 0)) ∧
    translate_batch_with_retry ⟨2, 1, 60⟩
        (fun _ => Attempt.exn .permissionDenied (chars "denied")) (fun _ => 0) [chars "t"] =
      (([chars "t"], false, some (chars "denied")),
        (List.range 0).map fun a => backoffDelay 1 60 a 0) ∧
    translate_batch_with_retry ⟨2, 1, 60⟩
        (fun a => if a < 2 then Attempt.exn .internalServerError (chars "boom")
                  else .ok [chars "done"]) (fun _ => 0) [chars "t"] =
      (([chars "done"], true, none),
        (List.range 2).map fun a => backoffDelay 1 60 a 0) :=
  ⟨(claim2_retry_backoff ⟨2, 1, 60⟩
      (fun _ => Attempt.exn .resourceExhausted (chars "rl")) (fun _ => 0) [chars "t"]
      (by decide)).1
      (fun a _ => ⟨.resourceExhausted, chars "rl", rfl, rfl⟩),
   (claim2_retry_backoff ⟨2, 1, 60⟩
      (fun _ => Attempt.exn .permissionDenied (chars "denied")) (fun _ => 0) [chars "t"]
      (by decide)).2.1 0 (chars "denied") (by omega) (fun a ha => absurd ha (by omega))
      (Or.inl rfl),
   (claim2_retry_backoff ⟨2, 1, 60⟩
      (fun a => if a < 2 then Attempt.exn .internalServerError (chars "boom")
                else .ok [chars "done"]) (fun _ => 0) [chars "t"]
      (by decide)).2.2 [chars "done"]
      (fun a ha => ⟨.internalServerError, chars "boom", by simp [ha], rfl⟩)
      (by norm_num)⟩

theorem gather_foldl_length {α : Type} (res : Nat → α) :
    ∀ (order : List Nat) (arr : List (Option α)),
      (order.foldl (fun a i => a.set i (some (res i))) arr).length = arr.length := by
  intro order
  induction order with
  | nil => intro arr; rfl
  | cons i rest ih =>
    intro arr
    rw [List.foldl_cons, ih, List.length_set]

theorem gather_foldl_getD {α : Type} (res : Nat → α) :
    ∀ (order : List Nat) (arr : List (Option α)) (jj : Nat), jj < arr.length →
      (order.foldl (fun a i => a.set i (some (res i))) arr).getD jj none =
        if jj ∈ order then some (res jj) else arr.getD jj none := by
  intro order
  induction order with
  | nil =>
    intro arr jj hj
    simp
  | cons i rest ih =>
    intro arr jj hj
    rw [List.foldl_cons, ih _ jj (by rw [List.length_set]; exact hj)]
    by_cases hjr : jj ∈ rest
    · simp [hjr]
    · by_cases hji : jj = i
      · subst hji
        rw [if_neg hjr, if_pos (List.mem_cons_self _ _)]
        rw [List.getD_eq_getElem _ _ (by rw [List.length_set]; exact hj)]
        exact List.getElem_set_self _
      · have : jj ∈ i :: rest ↔ False := by simp [hji, hjr]
        simp only [this, if_neg hjr, if_false]
        rw [List.getD_eq_getElem _ _ hj,
          List.getD_eq_getElem _ _ (by rw [List.length_set]; exact hj)]
        rw [List.getElem_set_ne (fun h => hji h.symm)]

theorem gatherCollect_perm {α : Type} (n : Nat) (res : Nat → α) (order : List Nat)
    (hperm : order.Perm (List.range n)) :
    gatherCollect n res order = (List.range n).map (fun i => some (res i)) := by
  have hlen : (gatherCollect n res order).length = n := by
    unfold gatherCollect
    rw [gather_foldl_length, List.length_replicate]
  apply List.ext_getElem
  · rw [hlen, List.length_map, List.length_range]
  · intro j h1 h2
    have hj : j < n := by rw [hlen] at h1; exact h1
    have hmem : j ∈ order := hperm.mem_iff.2 (List.mem_range.2 hj)
    have := gather_foldl_getD res order (List.replicate n none) j
      (by rw [List.length_replicate]; exact hj)
    rw [if_pos hmem] at this
    have hgetD : (gatherCollect n res order).getD j none = some (res j) := this
    rw [List.getD_eq_getElem _ _ h1] at hgetD
    rw [hgetD]
    simp

theorem map_range_getD {β γ : Type} (l : List β) (g : β → γ) (d : β) :
    (List.range l.length).map (fun i => g (l.getD i d)) = l.map g := by
  apply List.ext_getElem
  · simp
  · intro j h1 h2
    simp only [List.getElem_map, List.getElem_range]
    rw [List.getD_eq_getElem _ _ (by simpa using h2)]

/-- Claim C4: for any completion order of the batches (any permutation of
the task indices), `translate_batches_concurrent` returns exactly one
`(translations, success, error)` triple per input batch, in input order:
the result equals the per-batch results in the order of `batch_groups`,
independent of `order`. -/
theorem claim4_order_preservation (f : List Str → List Str × Bool × Option Str)
    (batch_groups : List (List Str)) (order : List Nat)
    (hperm : order.Perm (List.range batch_groups.length)) :
    translate_batches_concurrent f batch_groups order =
      ((batch_groups.map f).map (·.1),
       (batch_groups.map f).map (·.2.1),
       (batch_groups.map f).map (·.2.2)) := by
  unfold translate_batches_concurrent
  rw [gatherCollect_perm _ _ _ hperm]
  dsimp only
  have hres : List.map (fun o => Option.getD o ([], false, none))
      (List.map (fun i => some (f (batch_groups.getD i [])))
        (List.range batch_groups.length)) = batch_groups.map f := by
    rw [List.map_map]
    have hcomp : ((fun o => Option.getD o ([], false, none)) ∘
        fun i => some (f (batch_groups.getD i []))) =
        fun i => f (batch_groups.getD i []) := funext fun i => rfl
    rw [hcomp]
    exact map_range_getD batch_groups f []
  rw [hres]

/-- Witness for C4: two batches completing in reversed order still produce
results in input order. -/
theorem claim4_witness :
    translate_batches_concurrent (fun b : List Str => (b, true, (none : Option Str)))
        [[chars "a"], [chars "b"]] [1, 0] =
      ((([[chars "a"], [chars "b"]] : List (List Str)).map
          (fun b : List Str => (b, true, (none : Option Str)))).map (·.1),
       (([[chars "a"], [chars "b"]] : List (List Str)).map
          (fun b : List Str => (b, true, (none : Option Str)))).map (·.2.1),
       (([[chars "a"], [chars "b"]] : List (List Str)).map
          (fun b : List Str => (b, true, (none : Option Str)))).map (·.2.2)) :=
  claim4_order_preservation (fun b : List Str => (b, true, (none : Option Str)))
    [[chars "a"], [chars "b"]] [1, 0] (by decide)

/-- Claim C9 counterexample: on a missing input path, `translate_file` does
not fail with a NotFound error — it returns the in-band sentinel
`(0, 0, "")` (its body returns `0, 0, ""` on the existence check and its
`except` clause converts every exception to the same tuple). -/
theorem claim9_counterexample :
    translate_file [] parse_srt_content format_output_filename (fun es => es)
        (chars "missing.en.srt") (chars "id") none = .ok ((0, 0, []), []) ∧
    translate_file [] parse_srt_content format_output_filename (fun es => es)
        (chars "missing.en.srt") (chars "id") none ≠
      .error OrchestratorError.notFound := by
  constructor
  · rfl
  · intro h
    exact Except.noConfusion h

/-- Claim C9 (amended): `translate_file` never propagates an error: it
returns `.ok` on every input.  A missing input path yields the sentinel
`(0, 0, "")` with the filesystem untouched, and so does a file from which
zero entries parse — both failure conditions are reported through the same
in-band sentinel rather than as distinct raised errors, and no other
condition escapes either (every exception is caught and converted to the
sentinel). -/
theorem claim9_amended (fs : List (Str × Str)) (parseF : Str → List SRTEntry)
    (formatF : Str → Str → Str) (translateF : List SRTEntry → List SRTEntry)
    (input_path target : Str) (output_path : Option Str) :
    (∃ v, translate_file fs parseF formatF translateF input_path target output_path =
      .ok v) ∧
    (assocGet fs input_path = none →
      translate_file fs parseF formatF translateF input_path target output_path =
        .ok ((0, 0, []), fs)) ∧
    (∀ content, assocGet fs input_path = some content → parseF content = [] →
      translate_file fs parseF formatF translateF input_path target output_path =
        .ok ((0, 0, []), fs)) := by
  unfold translate_file
  refine ⟨?_, fun hmiss => ?_, fun content hsome hparse => ?_⟩
  · cases h : assocGet fs input_path with
    | none => exact ⟨_, rfl⟩
    | some content =>
      dsimp only
      split
      · exact ⟨_, rfl⟩
      · exact ⟨_, rfl⟩
  · rw [hmiss]
  · rw [hsome]
    dsimp only
    rw [if_pos hparse]

/-- Witness for C9 (amended) on an empty filesystem and on a file that
parses to zero entries. -/
theorem claim9_witness :
    translate_file [] parse_srt_content format_output_filename (fun es => es)
        (chars "a.en.srt") (chars "id") none = .ok ((0, 0, []), []) ∧
    translate_file [(chars "b.en.srt", chars "not a subtitle")] parse_srt_content
        format_output_filename (fun es => es) (chars "b.en.srt") (chars "id") none =
      .ok ((0, 0, []), [(chars "b.en.srt", chars "not a subtitle")]) :=
  ⟨(claim9_amended [] parse_srt_content format_output_filename (fun es => es)
      (chars "a.en.srt") (chars "id") none).2.1 rfl,
   (claim9_amended [(chars "b.en.srt", chars "not a subtitle")] parse_srt_content
      format_output_filename (fun es => es) (chars "b.en.srt") (chars "id") none).2.2
      (chars "not a subtitle") rfl (by decide)⟩

end Nichi
